import Mathlib

/-!
Shallow embedding of the content-generation pipeline
(quality scorer, platform strategies, strategy registry, orchestrator)
as executable Lean definitions over `List Char`, together with the
verification of the spec's claims about it.

Strings of the TypeScript source are embedded as `List Char`; JavaScript
regular-expression operations are embedded as structurally recursive
scanners with the same semantics on the relevant character classes.
-/

set_option maxRecDepth 40000

namespace S2P

/-! ## Character classes and basic string operations (JS semantics) -/

/-- The character class of JavaScript's regex `\s` (and of `String.prototype.trim`):
tab, LF, VT, FF, CR, space, NBSP, and the Unicode space/line separators. -/
def jsWs (c : Char) : Bool :=
  let n := c.toNat
  n = 9 ∨ n = 10 ∨ n = 11 ∨ n = 12 ∨ n = 13 ∨ n = 32 ∨ n = 0xa0 ∨ n = 0x1680 ∨
    (0x2000 ≤ n ∧ n ≤ 0x200a) ∨ n = 0x2028 ∨ n = 0x2029 ∨ n = 0x202f ∨ n = 0x205f ∨
    n = 0x3000 ∨ n = 0xfeff

/-- JavaScript line terminators recognized by the regex `m` flag. -/
def isLineTermJs (c : Char) : Bool :=
  let n := c.toNat
  n = 10 ∨ n = 13 ∨ n = 0x2028 ∨ n = 0x2029

/-- The character class of JavaScript's regex `\w`: ASCII letters, digits, underscore. -/
def isWordCharJs (c : Char) : Bool := c.isAlphanum ∨ c = '_'

/-- ASCII lower-casing, as `String.prototype.toLowerCase` acts on ASCII text. -/
def toLowerJs (l : List Char) : List Char := l.map Char.toLower

/-- JS `String.prototype.trim`: drop leading and trailing `jsWs` characters. -/
def trimList (l : List Char) : List Char :=
  ((l.dropWhile jsWs).reverse.dropWhile jsWs).reverse

/-- JS `String.prototype.includes`: `needle` occurs as a contiguous substring of `hay`. -/
def includesL (hay needle : List Char) : Bool :=
  needle.isPrefixOf hay ||
    match hay with
    | [] => false
    | _ :: t => includesL t needle

/-- JS `Array.prototype.join(sep)` over a list of strings. -/
def joinSep (sep : List Char) : List (List Char) → List Char
  | [] => []
  | [x] => x
  | x :: y :: rest => x ++ sep ++ joinSep sep (y :: rest)

/-- JS `str.split(re)` where `re` matches one maximal run of characters satisfying
`p`: tokens between separator runs, with an empty token at an end that starts or
finishes with a separator run (so the result is never empty). -/
def splitOnRunsAux (p : Char → Bool) (acc : List Char) : List Char → List (List Char)
  | [] => [acc.reverse]
  | c :: cs =>
    if p c then
      match cs with
      | d :: _ =>
        if p d then splitOnRunsAux p acc cs
        else acc.reverse :: splitOnRunsAux p [] cs
      | [] => acc.reverse :: splitOnRunsAux p [] cs
    else splitOnRunsAux p (c :: acc) cs

/-- JS `str.split(/\s+/)`. -/
def splitWsJs (l : List Char) : List (List Char) := splitOnRunsAux jsWs [] l

/-- The sentence-terminating punctuation class `[.!?]` of the scorer's splits. -/
def isSentPunct (c : Char) : Bool := c = '.' ∨ c = '!' ∨ c = '?'

/-- JS `str.split(/[.!?]+/)`. -/
def splitSentRaw (l : List Char) : List (List Char) := splitOnRunsAux isSentPunct [] l

/-- Number of maximal runs of characters satisfying `p` (JS `match(/[p]+/g).length`). -/
def countRunsAux (p : Char → Bool) : Bool → List Char → Nat
  | _, [] => 0
  | inRun, c :: cs =>
    if p c then (if inRun then 0 else 1) + countRunsAux p true cs
    else countRunsAux p false cs

def countRuns (p : Char → Bool) (l : List Char) : Nat := countRunsAux p false l

/-- A word of the action-word lexicon matches at the head of `l`, case-insensitively,
with a non-word character (or the end) right after it (the regex's trailing `\b`). -/
def wordMatchAt (w l : List Char) : Bool :=
  w.isPrefixOf (toLowerJs l) && ((l.drop w.length).head?.all (fun c => !isWordCharJs c))

/-- Case-insensitive `\b w \b` search: a match of `w` somewhere in `l` whose
preceding character (if any) is not a word character. -/
def hasWordCIAux (w : List Char) : Option Char → List Char → Bool
  | _, [] => false
  | prev, c :: cs =>
    ((prev.all (fun q => !isWordCharJs q)) && wordMatchAt w (c :: cs)) ||
      hasWordCIAux w (some c) cs

def hasWordCI (w l : List Char) : Bool := hasWordCIAux w none l

/-- Case-insensitive prefix test (the regex `^pat` with the `i` flag, `pat` lowercase). -/
def startsWithCI (pat l : List Char) : Bool := pat.isPrefixOf (toLowerJs l)

/-! ## ContentValidatorService (the quality scorer) -/

/-- The scorer's result record `QualityScore` (field `platform` is the "platform fit"
score). Scores are real-valued because the sentence-variety metric takes a square
root. -/
structure QualityScore where
  overall : ℝ
  authenticity : ℝ
  engagement : ℝ
  clarity : ℝ
  platform : ℝ

structure ContentIssues where
  critical : List (List Char)
  warnings : List (List Char)
  suggestions : List (List Char)

structure ContentMetrics where
  readabilityScore : ℚ
  sentenceVariety : ℝ
  aiSlopCount : ℕ
  engagementElements : List (List Char)

structure ContentQualityResult where
  score : QualityScore
  issues : ContentIssues
  metrics : ContentMetrics

/-- The scorer's `AI_SLOP_PHRASES` table. -/
def AI_SLOP_PHRASES : List (List Char) :=
  [ "delve".data, "delve into".data, "unlock the power".data, "unlock".data,
    "game-changer".data, "game changer".data, "revolutionize".data, "in conclusion".data,
    "in summary".data, "to summarize".data, "it's important to note".data,
    "it is important to note".data, "tapestry".data, "landscape".data, "realm".data,
    "leverage".data, "synergy".data, "paradigm shift".data, "cutting-edge".data,
    "state-of-the-art".data, "best practices".data, "world-class".data, "robust".data,
    "seamless".data, "holistic".data, "innovative".data, "disruptive".data,
    "transformative".data, "at the end of the day".data, "think outside the box".data,
    "low-hanging fruit".data, "move the needle".data, "deep dive".data ]

/-- The scorer's `CORPORATE_JARGON` table. -/
def CORPORATE_JARGON : List (List Char) :=
  [ "circle back".data, "touch base".data, "synergize".data, "drill down".data,
    "bandwidth".data, "take it offline".data, "run it up the flagpole".data,
    "boil the ocean".data, "drinking from the fire hose".data ]

/-- `detectAISlop`: the slop phrases occurring (case-insensitively) in the content. -/
def detectAISlop (content : List Char) : List (List Char) :=
  AI_SLOP_PHRASES.filter (fun phrase => includesL (toLowerJs content) (toLowerJs phrase))

/-- `detectCorporateJargon`. -/
def detectCorporateJargon (content : List Char) : List (List Char) :=
  CORPORATE_JARGON.filter (fun jargon => includesL (toLowerJs content) (toLowerJs jargon))

/-- Engagement test `question`: the regex `/\?/`. -/
def elemQuestion (l : List Char) : Bool := l.contains '?'

/-- Engagement test `numbers`: the regex `/\d+/`. -/
def elemNumbers (l : List Char) : Bool := l.any Char.isDigit

/-- A list marker `(\d+\.|[-•])` matches at the head of `l`. -/
def listMarkerAt (l : List Char) : Bool :=
  (let ds := l.takeWhile Char.isDigit
   (!ds.isEmpty) && (l.drop ds.length).head? = some '.') ||
    l.head? = some '-' || l.head? = some '•'

/-- Positions right after a line terminator (where the `m`-flagged `^` matches). -/
def afterLineStarts : List Char → Bool
  | [] => false
  | c :: cs => (isLineTermJs c && listMarkerAt cs) || afterLineStarts cs

/-- Engagement test `listFormat`: the regex `/^(\d+\.|[-•])/m`. -/
def elemListFormat (l : List Char) : Bool := listMarkerAt l || afterLineStarts l

/-- Engagement test `hook`: the regex with the i flag anchored at the start. -/
def elemHook (l : List Char) : Bool :=
  startsWithCI "stop".data l || startsWithCI "start".data l ||
    startsWithCI "here's".data l || startsWithCI "i spent".data l ||
    startsWithCI "the biggest".data l

/-- Engagement test `actionWord`: word-bounded, case-insensitive. -/
def elemActionWord (l : List Char) : Bool :=
  [ "learn".data, "discover".data, "create".data, "build".data, "avoid".data,
    "start".data, "stop".data ].any (fun w => hasWordCI w l)

/-- `detectEngagementElements`: the names of the engagement tests that fire,
in the order of the `ENGAGEMENT_ELEMENTS` table. -/
def detectEngagementElements (content : List Char) : List (List Char) :=
  (if elemQuestion content then ["question".data] else []) ++
    (if elemNumbers content then ["numbers".data] else []) ++
    (if elemListFormat content then ["listFormat".data] else []) ++
    (if elemHook content then ["hook".data] else []) ++
    (if elemActionWord content then ["actionWord".data] else [])

/-- The sentences the scorer counts: split on `[.!?]+`, keep those nonempty after trim. -/
def sentencesOf (content : List Char) : List (List Char) :=
  (splitSentRaw content).filter (fun s => !(trimList s).isEmpty)

/-- The words the scorer counts: split on `\s+`, keep the nonempty ones. -/
def wordsOf (content : List Char) : List (List Char) :=
  (splitWsJs content).filter (fun w => !w.isEmpty)

/-- Vowel class `[aeiouy]` of the syllable counter. -/
def isVowelY (c : Char) : Bool :=
  c = 'a' ∨ c = 'e' ∨ c = 'i' ∨ c = 'o' ∨ c = 'u' ∨ c = 'y'

/-- Syllables of one (already lower-cased) word: vowel-group count, minus one for a
trailing silent e, floored at one. -/
def syllablesOfWord (w : List Char) : ℤ :=
  max 1 ((countRuns isVowelY w : ℤ) - (if w.getLast? = some 'e' then 1 else 0))

/-- `countSyllables`: sum over the `\s+`-split of the lower-cased text. -/
def countSyllables (text : List Char) : ℤ :=
  ((splitWsJs (toLowerJs text)).map syllablesOfWord).foldl (· + ·) 0

/-- `calculateReadability`: the Flesch Reading Ease score, clamped to [0,100];
zero when there are no sentences or no words. -/
def calculateReadability (content : List Char) : ℚ :=
  let sentences := sentencesOf content
  let words := wordsOf content
  let syllables := countSyllables content
  if sentences.length = 0 ∨ words.length = 0 then 0
  else
    let avgWordsPerSentence : ℚ := (words.length : ℚ) / (sentences.length : ℚ)
    let avgSyllablesPerWord : ℚ := (syllables : ℚ) / (words.length : ℚ)
    let score := 206.835 - 1.015 * avgWordsPerSentence - 84.6 * avgSyllablesPerWord
    max 0 (min 100 score)

/-- The per-sentence word counts of `calculateSentenceVariety`. -/
def sentenceLengths (content : List Char) : List ℕ :=
  (sentencesOf content).map (fun s => (splitWsJs (trimList s)).length)

/-- `calculateSentenceVariety`: 1 when fewer than two sentences exist; otherwise the
coefficient of variation stdDev/mean of the per-sentence word counts (0 if the mean
is not positive). -/
noncomputable def calculateSentenceVariety (content : List Char) : ℝ :=
  let sentences := sentencesOf content
  if sentences.length < 2 then 1
  else
    let lengths := sentenceLengths content
    let mean : ℚ := ((lengths.map (fun n : ℕ => (n : ℚ))).foldl (· + ·) 0) / (lengths.length : ℚ)
    let variance : ℚ :=
      ((lengths.map (fun n : ℕ => ((n : ℚ) - mean) ^ 2)).foldl (· + ·) 0) / (lengths.length : ℚ)
    let stdDev : ℝ := Real.sqrt (variance : ℝ)
    if mean > 0 then stdDev / (mean : ℝ) else 0

/-- Specification-side definition (from the spec's words, for comparison with the
code's fold-based computation): the mean of the per-sentence word counts. -/
noncomputable def cvMeanSpec (content : List Char) : ℝ :=
  (((sentenceLengths content).map (fun n : ℕ => (n : ℝ))).sum) / ((sentenceLengths content).length : ℝ)

/-- Specification-side definition: the (population) variance of the per-sentence
word counts. -/
noncomputable def cvVarianceSpec (content : List Char) : ℝ :=
  (((sentenceLengths content).map (fun n : ℕ => ((n : ℝ) - cvMeanSpec content) ^ 2)).sum) /
    ((sentenceLengths content).length : ℝ)

/-- `isGeneric`: a canned generic phrase occurs, or the content has no digits, no
specificity marker, and more than 100 characters. -/
def isGeneric (content : List Char) : Bool :=
  let genericPhrases : List (List Char) :=
    [ "many people".data, "it is well known".data, "everyone knows".data,
      "as we all know".data, "generally speaking".data, "in today's world".data,
      "in this day and age".data ]
  let genericCount :=
    (genericPhrases.filter (fun phrase => includesL (toLowerJs content) phrase)).length
  let hasNumbers := content.any Char.isDigit
  let hasSpecifics :=
    [ "because".data, "example".data, "specifically".data, "for instance".data ].any
      (fun w => hasWordCI w content)
  genericCount > 0 || (!hasNumbers && !hasSpecifics && content.length > 100)

/-- JS `Math.round(x * 10) / 10` (round half toward positive infinity). -/
noncomputable def jsRound10 (x : ℝ) : ℝ := ((⌊x * 10 + 1 / 2⌋ : ℤ) : ℝ) / 10

/-- `calculateQualityScore`: the composite scores, each rounded to one decimal. -/
noncomputable def calculateQualityScore (content : List Char) (slopCount jargonCount
    engagementCount : ℕ) (readability : ℚ) (sentenceVariety : ℝ) : QualityScore :=
  let authenticity : ℚ := max 0 (min 10 (10 - (slopCount : ℚ) * 2 - (jargonCount : ℚ)))
  let engagement0 : ℚ := min 10 ((engagementCount : ℚ) * 3)
  let engagement : ℚ := if isGeneric content then max 0 (engagement0 - 3) else engagement0
  let clarity : ℚ := min 10 (readability / 10)
  let platform : ℝ := min 10 (sentenceVariety * 10 + 5)
  let overall : ℝ :=
    (authenticity : ℝ) * 0.3 + (engagement : ℝ) * 0.3 + (clarity : ℝ) * 0.2 +
      platform * 0.2
  { overall := jsRound10 overall
    authenticity := jsRound10 (authenticity : ℝ)
    engagement := jsRound10 (engagement : ℝ)
    clarity := jsRound10 (clarity : ℝ)
    platform := jsRound10 platform }

/-- `validateContent`: the scorer's top-level entry point. -/
noncomputable def validateContent (content : List Char) : ContentQualityResult :=
  let slopFound := detectAISlop content
  let jargonFound := detectCorporateJargon content
  let engagementElements := detectEngagementElements content
  let readabilityScore := calculateReadability content
  let sentenceVariety := calculateSentenceVariety content
  let warnings :=
    (if !slopFound.isEmpty then
      [ "AI slop detected: \"".data ++ joinSep "\", \"".data slopFound ++
          "\". Consider rewriting for authenticity.".data ]
     else []) ++
    (if !jargonFound.isEmpty then
      [ "Corporate jargon found: \"".data ++ joinSep "\", \"".data jargonFound ++
          "\". Use plain language.".data ]
     else []) ++
    (if readabilityScore < 60 then
      [ "Content is hard to read. Simplify sentences and use shorter words.".data ]
     else [])
  let suggestions :=
    (if engagementElements.isEmpty then
      [ "Add engagement elements: questions, numbers, or action words.".data ]
     else []) ++
    (if sentenceVariety < 0.3 then [ "Vary sentence length for better flow.".data ] else [])
  let critical :=
    if isGeneric content then
      [ "Content is too generic. Add specific examples, data, or insights.".data ]
    else []
  let score := calculateQualityScore content slopFound.length jargonFound.length
    engagementElements.length readabilityScore sentenceVariety
  { score := score
    issues := { critical := critical, warnings := warnings, suggestions := suggestions }
    metrics :=
      { readabilityScore := readabilityScore
        sentenceVariety := sentenceVariety
        aiSlopCount := slopFound.length
        engagementElements := engagementElements } }

/-! ## Platform strategy data model -/

inductive Tone
  | professional
  | casual
  | conversational
  | formal
  | humorous
deriving DecidableEq

def toneText : Tone → List Char
  | .professional => "professional".data
  | .casual => "casual".data
  | .conversational => "conversational".data
  | .formal => "formal".data
  | .humorous => "humorous".data

/-- The `ContentContext` record. Optional string fields are `Option`; the boolean
flags default to false when absent, which matches JS truthiness of `undefined`. -/
structure ContentContext where
  topic : List Char
  tone : Option Tone
  targetAudience : Option (List Char)
  includeHashtags : Bool
  includeEmojis : Bool
  callToAction : Option (List Char)
  format : Option (List Char)

/-- JS `a || d` for an optional string: the default steps in when the value is
absent or empty (falsy). -/
def orDefault (a : Option (List Char)) (d : List Char) : List Char :=
  match a with
  | some v => if v.isEmpty then d else v
  | none => d

structure PlatformConstraints where
  maxLength : ℕ
  minLength : ℕ
  maxHashtags : ℕ
  supportsThreads : Bool
  supportsMedia : Bool
  characterLimit : ℕ

inductive Engagement
  | low
  | medium
  | high
deriving DecidableEq

structure OptimizedMetadata where
  platform : List Char
  characterCount : ℕ
  wordCount : ℕ
  estimatedEngagement : Engagement
  suggestions : List (List Char)

structure OptimizedContent where
  content : List Char
  hashtags : List (List Char)
  metadata : OptimizedMetadata

structure ValidationResult where
  isValid : Bool
  errors : List (List Char)
  warnings : List (List Char)
  score : ℚ

/-! ## Post-processing primitives (the strategies' regex replacements) -/

/-- The replacement `/^["']|["']$/g → ''`: one leading and one trailing quote
character removed. -/
def stripQuotes (l : List Char) : List Char :=
  let l1 :=
    match l with
    | c :: cs => if c = '"' ∨ c = '\'' then cs else l
    | [] => []
  match l1.reverse with
  | c :: cs => if c = '"' ∨ c = '\'' then cs.reverse else l1
  | [] => l1

/-- The replacement `/\s+/g → ' '`: every maximal whitespace run becomes one space.
The boolean argument records a pending (not yet emitted) run. -/
def squeezeWSAux : Bool → List Char → List Char
  | true, [] => [' ']
  | false, [] => []
  | pending, c :: cs =>
    if jsWs c then squeezeWSAux true cs
    else if pending then ' ' :: c :: squeezeWSAux false cs
    else c :: squeezeWSAux false cs

def squeezeWS (l : List Char) : List Char := squeezeWSAux false l

/-- Helper of `collapseRuns`: emit a finished run of `n` copies of `ch`,
replaced by `rep` when it reaches the threshold `k`. -/
def runOut (ch : Char) (k : ℕ) (rep : List Char) (n : ℕ) : List Char :=
  if n = 0 then [] else if k ≤ n then rep else List.replicate n ch

/-- Replace every maximal run of `ch` of length at least `k` by `rep`
(the replacements `/!!!+/g → '!'`, `/\?\?+/g → '?'`, `/\.\.\.+/g → '...'`,
`/\n{3,}/g → '\n\n'`). The counter is the pending run length. -/
def collapseRunsAux (ch : Char) (k : ℕ) (rep : List Char) : ℕ → List Char → List Char
  | n, [] => runOut ch k rep n
  | n, c :: cs =>
    if c = ch then collapseRunsAux ch k rep (n + 1) cs
    else runOut ch k rep n ++ c :: collapseRunsAux ch k rep 0 cs

def collapseRuns (ch : Char) (k : ℕ) (rep : List Char) (l : List Char) : List Char :=
  collapseRunsAux ch k rep 0 l

/-- Punctuation class `[.,!?]` of the LinkedIn spacing fixes. -/
def isSpacingPunct (c : Char) : Bool := c = '.' ∨ c = ',' ∨ c = '!' ∨ c = '?'

/-- ASCII letter class `[A-Za-z]`. -/
def isAsciiLetter (c : Char) : Bool :=
  (65 ≤ c.toNat ∧ c.toNat ≤ 90) ∨ (97 ≤ c.toNat ∧ c.toNat ≤ 122)

/-- The replacement `/\s+([.,!?])/g → '$1'`: drop a maximal whitespace run that
immediately precedes a punctuation mark. The accumulator holds the pending
(reversed) whitespace run. -/
def stripWsPunctAux : List Char → List Char → List Char
  | pend, [] => pend.reverse
  | pend, c :: cs =>
    if jsWs c then stripWsPunctAux (c :: pend) cs
    else if isSpacingPunct c then c :: stripWsPunctAux [] cs
    else pend.reverse ++ c :: stripWsPunctAux [] cs

def stripWsBeforePunct (l : List Char) : List Char := stripWsPunctAux [] l

/-- The replacement `/([.,!?])([A-Za-z])/g → '$1 $2'`: insert a space between a
punctuation mark and a letter directly following it. -/
def spaceAfterPunct : List Char → List Char
  | [] => []
  | [c] => [c]
  | p :: a :: cs =>
    if isSpacingPunct p ∧ isAsciiLetter a then p :: ' ' :: a :: spaceAfterPunct cs
    else p :: spaceAfterPunct (a :: cs)

/-- The replacement `/^(Tweet|Thread):\s*/i → ''` of the Twitter post-processor. -/
def stripLabelTw (l : List Char) : List Char :=
  if startsWithCI "tweet:".data l then (l.drop 6).dropWhile jsWs
  else if startsWithCI "thread:".data l then (l.drop 7).dropWhile jsWs
  else l

/-- The replacement `/^(LinkedIn Post|Post):\s*/i → ''` of the LinkedIn
post-processor. -/
def stripLabelLi (l : List Char) : List Char :=
  if startsWithCI "linkedin post:".data l then (l.drop 14).dropWhile jsWs
  else if startsWithCI "post:".data l then (l.drop 5).dropWhile jsWs
  else l

/-! ## Hashtag extraction (the regex `/#[\w]+/g`, match and removal in one scan) -/

/-- Scan for `/#[\w]+/g`: returns (matches, residual after replacing matches by '').
The state holds the reversed word characters read since a '#', when inside a
candidate match. -/
def hashtagScanAux : Option (List Char) → List Char → List (List Char) × List Char
  | none, [] => ([], [])
  | some wrev, [] =>
    if wrev.isEmpty then ([], ['#']) else ([('#' :: wrev.reverse)], [])
  | none, c :: cs =>
    if c = '#' then hashtagScanAux (some []) cs
    else
      let r := hashtagScanAux none cs
      (r.1, c :: r.2)
  | some wrev, c :: cs =>
    if isWordCharJs c then hashtagScanAux (some (c :: wrev)) cs
    else if c = '#' then
      let r := hashtagScanAux (some []) cs
      if wrev.isEmpty then (r.1, '#' :: r.2)
      else (('#' :: wrev.reverse) :: r.1, r.2)
    else
      let r := hashtagScanAux none cs
      if wrev.isEmpty then (r.1, '#' :: c :: r.2)
      else (('#' :: wrev.reverse) :: r.1, c :: r.2)

/-- The hashtag matches of `/#[\w]+/g` over `l`. -/
def hashtagMatches (l : List Char) : List (List Char) := (hashtagScanAux none l).1

/-- `l` with every `/#[\w]+/g` match replaced by the empty string. -/
def hashtagRemove (l : List Char) : List Char := (hashtagScanAux none l).2

/-- JS `'#' + w.charAt(0).toUpperCase() + w.slice(1)` without the marker. -/
def capFirst : List Char → List Char
  | [] => []
  | c :: rest => Char.toUpper c :: rest

/-- JS `String.prototype.split(sep)` with a one-character separator (keeps empty
pieces). -/
def splitOnCharAux (sep : Char) (acc : List Char) : List Char → List (List Char)
  | [] => [acc.reverse]
  | c :: cs =>
    if c = sep then acc.reverse :: splitOnCharAux sep [] cs
    else splitOnCharAux sep (c :: acc) cs

def splitOnChar (sep : Char) (l : List Char) : List (List Char) := splitOnCharAux sep [] l

/-- JS `str.replace('#', '')`: remove the first occurrence only. -/
def removeFirstHash : List Char → List Char
  | [] => []
  | c :: cs => if c = '#' then cs else c :: removeFirstHash cs

/-! ## TwitterStrategy -/

namespace TwitterStrategy

def CHAR_LIMIT : ℕ := 280

def MAX_HASHTAGS : ℕ := 2

def getConstraints : PlatformConstraints :=
  { maxLength := CHAR_LIMIT
    minLength := 50
    maxHashtags := MAX_HASHTAGS
    supportsThreads := true
    supportsMedia := true
    characterLimit := CHAR_LIMIT }

/-- `generateHashtags`: words of the topic longer than three characters,
title-cased, at most two. -/
def generateHashtags (topic : List Char) : List (List Char) :=
  let words := (splitOnChar ' ' topic).filter (fun w => w.length > 3)
  (words.take 2).map (fun w => '#' :: capFirst w)

/-- `generateSuggestions` of the Twitter strategy. -/
def generateSuggestions (content : List Char) (context : ContentContext) :
    List (List Char) :=
  (if content.length < 100 then
    [ "Consider expanding with a specific example or data point".data ]
   else []) ++
  (if !content.contains '?' then
    [ "Add a question at the end to encourage replies".data ]
   else []) ++
  (if !content.any Char.isDigit then
    [ "Consider adding specific numbers or metrics for credibility".data ]
   else []) ++
  (if context.format = some "thread".data ∧ ¬ (includesL content "---".data = true) then
    [ "For threads, separate tweets with \"---\"".data ]
   else [])

/-- `optimize` of the Twitter strategy. -/
def optimize (content : List Char) (context : ContentContext) : OptimizedContent :=
  let c0 := trimList content
  let foundHashtags := hashtagMatches c0
  let afterRemove := if foundHashtags.length > 0 then trimList (hashtagRemove c0) else c0
  let hashtags1 :=
    if foundHashtags.length > 0 then foundHashtags.take MAX_HASHTAGS else []
  let hashtags :=
    if context.includeHashtags ∧ hashtags1.length = 0 then
      (generateHashtags context.topic).take MAX_HASHTAGS
    else hashtags1
  let optimizedContent :=
    if hashtags.length > 0 then afterRemove ++ "\n\n".data ++ joinSep " ".data hashtags
    else afterRemove
  let characterCount := optimizedContent.length
  let wordCount := (splitWsJs optimizedContent).length
  let estimatedEngagement :=
    if characterCount < 100 then Engagement.low
    else if characterCount > 100 ∧ characterCount < 250 then Engagement.high
    else if characterCount > 250 then Engagement.medium
    else Engagement.medium
  { content := optimizedContent
    hashtags := hashtags.map removeFirstHash
    metadata :=
      { platform := "twitter".data
        characterCount := characterCount
        wordCount := wordCount
        estimatedEngagement := estimatedEngagement
        suggestions := generateSuggestions optimizedContent context } }

/-- The Twitter validator's slop-phrase table. -/
def slopPhrases : List (List Char) :=
  [ "delve".data, "unlock the power".data, "game-changer".data, "revolutionize".data,
    "in conclusion".data, "in summary".data, "it's important to note".data,
    "tapestry".data, "landscape".data, "realm".data, "leverage".data, "synergy".data ]

/-- `validate` of the Twitter strategy: fixed deductions from a baseline of 10,
clamped to [0,10]; invalid iff an error was pushed. -/
def validate (content : List Char) : ValidationResult :=
  let errors :=
    if content.length > CHAR_LIMIT then
      [ "Content exceeds Twitter's 280 character limit".data ]
    else []
  let warnings1 :=
    if content.length < 50 then
      [ "Content is very short. Consider adding more value.".data ]
    else []
  let foundSlop := slopPhrases.filter (fun phrase => includesL (toLowerJs content) phrase)
  let warnings2 :=
    if foundSlop.length > 0 then
      [ "AI slop detected: \"".data ++ joinSep "\", \"".data foundSlop ++
          "\". Consider rewriting.".data ]
    else []
  let hashtagCount := content.count '#'
  let warnings3 :=
    if hashtagCount > 3 then [ "Too many hashtags. 1-2 hashtags perform better.".data ]
    else []
  let hasQuestion := content.contains '?'
  let hasNumbers := content.any Char.isDigit
  let warnings4 :=
    if !hasQuestion ∧ content.length > 100 then
      [ "Consider ending with a question to boost engagement.".data ]
    else []
  let score : ℚ :=
    10 - (if content.length > CHAR_LIMIT then 3 else 0) -
      (if content.length < 50 then 1 else 0) -
      (if foundSlop.length > 0 then (foundSlop.length : ℚ) else 0) -
      (if hashtagCount > 3 then 1 else 0) + (if hasNumbers then 1 else 0)
  { isValid := errors.isEmpty
    errors := errors
    warnings := warnings1 ++ warnings2 ++ warnings3 ++ warnings4
    score := max 0 (min 10 score) }

/-- `postProcess` of the Twitter strategy: strip a leading label and wrapping
quotes, trim, collapse all whitespace to single spaces, collapse `!!!+` and
`??+` runs. -/
def postProcess (content : List Char) : List Char :=
  collapseRuns '?' 2 "?".data
    (collapseRuns '!' 3 "!".data
      (squeezeWS (trimList (stripQuotes (stripLabelTw content)))))

end TwitterStrategy

/-! ## LinkedInStrategy -/

namespace LinkedInStrategy

def CHAR_LIMIT : ℕ := 3000

def OPTIMAL_MIN_LENGTH : ℕ := 1300

def OPTIMAL_MAX_LENGTH : ℕ := 2000

def MIN_LENGTH : ℕ := 150

def HOOK_CHAR_LIMIT : ℕ := 210

def RECOMMENDED_MIN : ℕ := 3

def RECOMMENDED_MAX : ℕ := 5

def MAX_HASHTAGS : ℕ := 7

def getConstraints : PlatformConstraints :=
  { maxLength := CHAR_LIMIT
    minLength := MIN_LENGTH
    maxHashtags := RECOMMENDED_MAX
    supportsThreads := false
    supportsMedia := true
    characterLimit := CHAR_LIMIT }

/-- The LinkedIn-specific slop-phrase table `linkedinSlop`. -/
def linkedinSlop : List (List Char) :=
  [ "thrilled to announce".data, "honored and humbled".data, "i'm excited to share".data,
    "blessed and grateful".data, "thoughts?".data, "agree?".data, "delve".data,
    "unlock".data, "game-changer".data, "revolutionize".data, "game changer".data,
    "paradigm shift".data, "synergy".data, "leverage".data, "circle back".data,
    "touch base".data, "low-hanging fruit".data, "move the needle".data,
    "drink the kool-aid".data ]

/-- `hasCallToAction`: one of ten call-to-action phrases occurs (case-insensitively). -/
def hasCallToAction (content : List Char) : Bool :=
  [ "what do you think".data, "share your".data, "let me know".data,
    "drop a comment".data, "comment below".data, "connect with me".data,
    "follow for".data, "join the conversation".data, "what's your experience".data,
    "have you tried".data ].any (fun p => includesL (toLowerJs content) p)

/-- The pattern `/\d+%/`: some digit directly followed by a percent sign. -/
def digitPercentScan : List Char → Bool
  | [] => false
  | c :: cs => (c.isDigit && cs.head? = some '%') || digitPercentScan cs

/-- The pattern `/\d+ (years|months|weeks)/` (case-sensitive). -/
def digitTimeScan : List Char → Bool
  | [] => false
  | c :: cs =>
    (c.isDigit &&
      (match cs with
       | d :: rest =>
         d = ' ' &&
           ( "years".data.isPrefixOf rest || "months".data.isPrefixOf rest ||
             "weeks".data.isPrefixOf rest)
       | [] => false)) || digitTimeScan cs

/-- `hasValueIndicators`: percentages, time spans, or one of the value phrases. -/
def hasValueIndicators (content : List Char) : Bool :=
  digitPercentScan content || digitTimeScan content ||
    ([ "learned".data, "discovered".data, "insight".data, "lesson".data,
       "strategy".data, "approach".data, "framework".data, "results".data,
       "data shows".data, "research".data, "analysis".data, "case study".data ].any
      (fun p => includesL (toLowerJs content) p))

/-- `generateHashtags`: topic words (lower-cased, longer than three characters, not
common words) title-cased, padded with general professional hashtags up to the
recommended minimum, capped at the recommended maximum. The fuel argument of the
loop bounds the while-loop, whose guard stops at three hashtags. -/
def hashtagLoop (wordCount : ℕ) (general : List (List Char)) :
    List (List Char) → ℕ → List (List Char)
  | hs, 0 => hs
  | hs, fuel + 1 =>
    if hs.length < RECOMMENDED_MIN then
      match (if wordCount ≤ hs.length then general.get? (hs.length - wordCount) else none) with
      | some tag =>
        if hs.contains tag then hs else hashtagLoop wordCount general (hs ++ [tag]) fuel
      | none => hs
    else hs

def generateHashtags (topic : List Char) : List (List Char) :=
  let commonWords : List (List Char) :=
    [ "the".data, "a".data, "an".data, "and".data, "or".data, "but".data, "in".data,
      "on".data, "at".data, "to".data, "for".data ]
  let words := (splitWsJs (toLowerJs topic)).filter
    (fun w => w.length > 3 ∧ ¬ (commonWords.contains w = true))
  let fromTopic := (words.take 3).map (fun w => '#' :: capFirst w)
  let general : List (List Char) :=
    [ "#Leadership".data, "#ProfessionalDevelopment".data, "#CareerGrowth".data ]
  (hashtagLoop words.length general fromTopic 3).take RECOMMENDED_MAX

/-- The sentence matcher `/[^.!?]+[.!?]+/g` of `optimizeLineBreaks`: maximal
non-terminator run followed by a maximal terminator run. The boolean state says
whether the current (reversed) accumulator has entered its punctuation part. -/
def sentSegAux : List Char → Bool → List Char → List (List Char)
  | acc, inPunct, [] => if inPunct then [acc.reverse] else []
  | acc, false, c :: cs =>
    if isSentPunct c then
      if acc.isEmpty then sentSegAux [] false cs
      else sentSegAux (c :: acc) true cs
    else sentSegAux (c :: acc) false cs
  | acc, true, c :: cs =>
    if isSentPunct c then sentSegAux (c :: acc) true cs
    else acc.reverse :: sentSegAux [c] false cs

/-- The reflow loop of `optimizeLineBreaks`: a double line break after roughly
every two sentences or 200 accumulated characters, a joining space otherwise. -/
def reflowAux (total : ℕ) : ℕ → ℕ → List (List Char) → List Char
  | _, _, [] => []
  | idx, lineLen, s :: rest =>
    let trimmed := trimList s
    let lineLen2 := lineLen + trimmed.length
    if lineLen2 > 200 ∨ (idx > 0 ∧ (idx + 1) % 2 = 0) then
      trimmed ++ '\n' :: '\n' :: reflowAux total (idx + 1) 0 rest
    else if idx < total - 1 then
      trimmed ++ ' ' :: reflowAux total (idx + 1) lineLen2 rest
    else trimmed ++ reflowAux total (idx + 1) lineLen2 rest

/-- `optimizeLineBreaks`: re-chunk into paragraphs unless the content already has
four line breaks or at most two sentences. -/
def optimizeLineBreaks (content : List Char) : List Char :=
  let existingBreaks := content.count '\n'
  if existingBreaks ≥ 4 then content
  else
    let matched := sentSegAux [] false content
    let sentences := if matched.isEmpty then [content] else matched
    if sentences.length ≤ 2 then content
    else trimList (reflowAux sentences.length 0 0 sentences)

/-- `generateSuggestions` of the LinkedIn strategy. -/
def generateSuggestions (content : List Char) (context : ContentContext) :
    List (List Char) :=
  (if content.length < OPTIMAL_MIN_LENGTH then
    [ "Expand to 1300-2000 characters for optimal engagement".data ]
   else []) ++
  (let hook := content.take HOOK_CHAR_LIMIT
   if ¬ (hook.contains '?' = true) ∧ ¬ (hook.any Char.isDigit = true) then
    [ "Consider adding a question or specific number in your hook".data ]
   else []) ++
  (if content.count '\n' < 3 ∧ content.length > 500 then
    [ "Add more line breaks for better readability".data ]
   else []) ++
  (if !hasCallToAction content then
    [ "Add a call-to-action to encourage comments and engagement".data ]
   else []) ++
  (if !content.any Char.isDigit then
    [ "Include specific numbers, data, or metrics to add credibility".data ]
   else []) ++
  (if !hasValueIndicators content then
    [ "Add concrete insights, lessons learned, or professional experiences".data ]
   else []) ++
  (if content.count '#' = 0 ∧ context.includeHashtags then
    [ "Add 3-5 relevant hashtags".data ]
   else [])

/-- `optimize` of the LinkedIn strategy. -/
def optimize (content : List Char) (context : ContentContext) : OptimizedContent :=
  let c0 := trimList content
  let foundHashtags := hashtagMatches c0
  let afterRemove := if foundHashtags.length > 0 then trimList (hashtagRemove c0) else c0
  let hashtags1 :=
    if foundHashtags.length > 0 then foundHashtags.take RECOMMENDED_MAX else []
  let hashtags :=
    if context.includeHashtags ∧ hashtags1.length = 0 then
      (generateHashtags context.topic).take RECOMMENDED_MAX
    else hashtags1
  let reflowed := optimizeLineBreaks afterRemove
  let optimizedContent :=
    if hashtags.length > 0 then reflowed ++ "\n\n".data ++ joinSep " ".data hashtags
    else reflowed
  let characterCount := optimizedContent.length
  let wordCount := (splitWsJs optimizedContent).length
  let estimatedEngagement :=
    if characterCount < MIN_LENGTH * 2 then Engagement.low
    else if OPTIMAL_MIN_LENGTH ≤ characterCount ∧ characterCount ≤ OPTIMAL_MAX_LENGTH then
      Engagement.high
    else if characterCount > OPTIMAL_MAX_LENGTH then Engagement.medium
    else Engagement.medium
  { content := optimizedContent
    hashtags := hashtags.map removeFirstHash
    metadata :=
      { platform := "linkedin".data
        characterCount := characterCount
        wordCount := wordCount
        estimatedEngagement := estimatedEngagement
        suggestions := generateSuggestions optimizedContent context } }

/-- `validate` of the LinkedIn strategy. -/
def validate (content : List Char) : ValidationResult :=
  let errors1 :=
    if content.length > CHAR_LIMIT then
      [ "Content exceeds LinkedIn's 3000 character limit".data ]
    else []
  let errors2 :=
    if content.length < MIN_LENGTH then
      [ "Content is too short (minimum 150 characters for LinkedIn)".data ]
    else []
  let warnings1 :=
    if content.length < OPTIMAL_MIN_LENGTH then
      [ "Content is short. Consider expanding to 1300-2000 characters for better engagement.".data ]
    else if content.length > OPTIMAL_MAX_LENGTH then
      [ "Content is long. Posts between 1300-2000 characters tend to perform better.".data ]
    else []
  let hook := content.take HOOK_CHAR_LIMIT
  let warnings2 :=
    if hook.length < 100 then
      [ "Hook might be too short. First 210 characters appear before \"see more\".".data ]
    else []
  let genericHit :=
    startsWithCI "in today's".data hook || startsWithCI "in this post".data hook ||
      startsWithCI "let me share".data hook || startsWithCI "i want to talk about".data hook
  let warnings3 :=
    if genericHit then [ "Consider a stronger hook. Avoid generic openings.".data ] else []
  let foundSlop := linkedinSlop.filter (fun phrase => includesL (toLowerJs content) phrase)
  let warnings4 :=
    if foundSlop.length > 0 then
      [ "LinkedIn AI slop detected: \"".data ++ joinSep "\", \"".data foundSlop ++
          "\". Rewrite for authenticity.".data ]
    else []
  let hashtagCount := content.count '#'
  let warnings5 :=
    if hashtagCount > MAX_HASHTAGS then
      [ "Too many hashtags (".data ++ Nat.toDigits 10 hashtagCount ++
          "). 3-5 hashtags perform best.".data ]
    else if hashtagCount < RECOMMENDED_MIN ∧ hashtagCount > 0 then
      [ "Consider adding more hashtags (3-5 recommended).".data ]
    else []
  let lineBreaks := content.count '\n'
  let warnings6 :=
    if content.length > 500 ∧ lineBreaks < 3 then
      [ "Add line breaks for readability. LinkedIn posts perform better with white space.".data ]
    else []
  let hasQuestion := content.contains '?'
  let hasNumbers := content.any Char.isDigit
  let cta := hasCallToAction content
  let warnings7 :=
    if ¬ (hasQuestion = true) ∧ ¬ (cta = true) then
      [ "Consider adding a question or call-to-action to boost engagement.".data ]
    else []
  let valueIndicators := hasValueIndicators content
  let warnings8 :=
    if !valueIndicators then
      [ "Consider adding specific insights, data, or professional lessons.".data ]
    else []
  let score : ℚ :=
    10 - (if content.length > CHAR_LIMIT then 3 else 0) -
      (if content.length < MIN_LENGTH then 2 else 0) -
      (if content.length < OPTIMAL_MIN_LENGTH then (1 : ℚ) / 2
       else if content.length > OPTIMAL_MAX_LENGTH then (1 : ℚ) / 2 else 0) -
      (if hook.length < 100 then (1 : ℚ) / 2 else 0) -
      (if genericHit then (1 : ℚ) / 2 else 0) -
      (if foundSlop.length > 0 then (foundSlop.length : ℚ) * ((1 : ℚ) / 2) else 0) -
      (if hashtagCount > MAX_HASHTAGS then 1 else 0) -
      (if content.length > 500 ∧ lineBreaks < 3 then 1 else 0) -
      (if ¬ (hasQuestion = true) ∧ ¬ (cta = true) then (1 : ℚ) / 2 else 0) +
      (if hasNumbers then (1 : ℚ) / 2 else 0) -
      (if !valueIndicators then 1 else 0) +
      (if 4 ≤ lineBreaks ∧ lineBreaks ≤ 10 then (1 : ℚ) / 2 else 0)
  { isValid := (errors1 ++ errors2).isEmpty
    errors := errors1 ++ errors2
    warnings :=
      warnings1 ++ warnings2 ++ warnings3 ++ warnings4 ++ warnings5 ++ warnings6 ++
        warnings7 ++ warnings8
    score := max 0 (min 10 score) }

/-- `postProcess` of the LinkedIn strategy: strip a leading label and wrapping
quotes, trim, collapse triple line breaks, collapse punctuation runs, and fix
spacing around punctuation. -/
def postProcess (content : List Char) : List Char :=
  spaceAfterPunct
    (stripWsBeforePunct
      (collapseRuns '.' 3 "...".data
        (collapseRuns '?' 2 "?".data
          (collapseRuns '!' 3 "!".data
            (collapseRuns '\n' 3 "\n\n".data
              (trimList (stripQuotes (stripLabelLi content))))))))

end LinkedInStrategy

/-! ## PlatformOptimizerService (the strategy registry) -/

inductive Strategy
  | twitter
  | linkedin
deriving DecidableEq

/-- `getStrategy`: case-insensitive lookup in the registry map with the Twitter
strategy as the fallback for unknown platforms. -/
def getStrategy (platform : List Char) : Strategy :=
  let p := toLowerJs platform
  if p = "twitter".data then Strategy.twitter
  else if p = "linkedin".data then Strategy.linkedin
  else Strategy.twitter

def strategyOptimize : Strategy → List Char → ContentContext → OptimizedContent
  | .twitter => TwitterStrategy.optimize
  | .linkedin => LinkedInStrategy.optimize

def strategyValidate : Strategy → List Char → ValidationResult
  | .twitter => TwitterStrategy.validate
  | .linkedin => LinkedInStrategy.validate

def strategyPostProcess : Strategy → List Char → List Char
  | .twitter => TwitterStrategy.postProcess
  | .linkedin => LinkedInStrategy.postProcess

def strategyConstraints : Strategy → PlatformConstraints
  | .twitter => TwitterStrategy.getConstraints
  | .linkedin => LinkedInStrategy.getConstraints

/-! ## Prompt templates -/

/-- JS `tone || d` for the optional tone field. -/
def toneOr (t : Option Tone) (d : List Char) : List Char :=
  match t with
  | some v => toneText v
  | none => d

/-- `generateSingleTweetPrompt`. -/
def twitterSinglePrompt (context : ContentContext) : List Char :=
  "Create a high-performing Twitter post about: ".data ++ context.topic ++
    "\n\nRequirements:\n- Use a ".data ++ toneOr context.tone "conversational".data ++
    " tone\n- Target audience: ".data ++
    orDefault context.targetAudience "general tech audience".data ++
    "\n- Maximum 280 characters\n- Start with a strong hook that triggers curiosity or emotion\n- Use concrete, specific language (avoid vague generalities)\n- Include one clear insight or takeaway\n- End with a question or call-to-action to boost engagement\n\nCRITICAL - Avoid AI slop:\n- NO clichés like \"delve\", \"unlock\", \"game-changer\", \"revolutionize\"\n- NO generic platitudes or obvious statements\n- NO \"In conclusion\" or \"To summarize\"\n- NO emoji spam\n- Use specific examples over abstract concepts\n- Write like a real human, not a corporate blog\n\nStructure: [Hook] → [Insight] → [Call-to-action]\n\nOutput only the tweet text, nothing else.".data

/-- `generateThreadPrompt`. -/
def twitterThreadPrompt (context : ContentContext) : List Char :=
  "Create a high-performing Twitter thread about: ".data ++ context.topic ++
    "\n\nRequirements:\n- Use a ".data ++ toneOr context.tone "conversational".data ++
    " tone\n- Target audience: ".data ++
    orDefault context.targetAudience "general tech audience".data ++
    "\n- 3-5 tweets maximum\n- Each tweet must be under 280 characters\n- Thread structure:\n  1. Hook tweet (start with curiosity gap or bold statement)\n  2-3. Value tweets (insights, frameworks, examples)\n  4. Conclusion tweet (summary + call-to-action)\n\nFirst tweet MUST grab attention using one of these patterns:\n- \"I spent [time] learning [topic]. Here's what I discovered:\"\n- \"[Number] things about [topic] that changed how I think:\"\n- \"The biggest mistake people make with [topic]:\"\n- \"Here's why [contrarian opinion]:\"\n\nCRITICAL - Avoid AI slop:\n- NO clichés like \"delve\", \"unlock\", \"game-changer\", \"revolutionize\", \"landscape\"\n- NO generic advice that could apply to anything\n- NO emoji spam (max 1-2 per tweet)\n- Use specific examples and concrete numbers\n- Write conversationally, like you're texting a friend\n- Each tweet should provide standalone value\n\nFormat: Separate each tweet with \"---\" on a new line.\n\nOutput only the thread text, nothing else.".data

/-- `generatePrompt` of the Twitter strategy: the thread template when the format
is 'thread' (defaulting to 'single'), the single-tweet template otherwise. -/
def twitterGeneratePrompt (context : ContentContext) : List Char :=
  if context.format.getD "single".data = "thread".data then twitterThreadPrompt context
  else twitterSinglePrompt context

/-- `generatePrompt` of the LinkedIn strategy. -/
def linkedinGeneratePrompt (context : ContentContext) : List Char :=
  "Create a high-performing LinkedIn post about: ".data ++ context.topic ++
    "\n\nRequirements:\n- Use a ".data ++
    toneOr context.tone "professional yet conversational".data ++
    " tone\n- Target audience: ".data ++
    orDefault context.targetAudience "professionals in the industry".data ++
    "\n- Length: 1300-2000 characters (optimal for engagement)\n- Maximum 3000 characters\n\nStructure:\n1. HOOK (first 2-3 lines, max 210 chars - this shows before \"see more\"):\n   - Start with a compelling hook: bold statement, question, data point, or personal story\n   - Make it intriguing enough that readers want to click \"see more\"\n   - Examples: \"I analyzed 500 LinkedIn posts. Here's what the top performers have in common:\" OR \"Most professionals waste 10+ hours/week on this mistake:\"\n\n2. MAIN CONTENT:\n   - Use short paragraphs (2-3 lines max) with line breaks for readability\n   - Include specific examples, data, or personal experiences (not abstract concepts)\n   - Add credibility markers (years of experience, specific results, concrete numbers)\n   - Tell a story or share a case study when relevant\n   - Use bullet points or numbered lists for key takeaways\n\n3. VALUE & INSIGHTS:\n   - Provide actionable insights, not generic advice\n   - Share lessons learned or professional wisdom\n   - Include data/metrics to support claims when possible\n\n4. CLOSING:\n   - End with clear value proposition or key takeaway\n   - Include call-to-action: ".data ++
    orDefault context.callToAction "question for engagement or invitation to connect".data ++
    "\n   - Make it conversational and invite discussion\n\nFormatting:\n- Use line breaks every 2-3 sentences for readability\n- Add emojis sparingly (1-3 max) and only if they add value\n- Use --- for section breaks if needed\n- Leave hashtags for the end (we'll add them separately)\n\nCRITICAL - Write like a human professional:\n- NO AI slop: avoid \"thrilled to announce\", \"honored and humbled\", \"I'm excited to share\", \"blessed and grateful\"\n- NO lazy engagement: avoid \"Thoughts?\" or \"Agree?\" as standalone CTAs\n- NO corporate jargon: avoid \"synergy\", \"leverage\", \"circle back\", \"low-hanging fruit\", \"paradigm shift\"\n- NO clichés: avoid \"game-changer\", \"revolutionize\", \"unlock\", \"delve\"\n- NO generic platitudes that could apply to anything\n- Use specific examples over vague statements\n- Write with personality and authenticity\n- Share real experiences and concrete insights\n\nTone guidelines:\n- Professional but approachable (not stuffy or overly formal)\n- Confident but not arrogant\n- Data-driven when relevant\n- Story-driven when appropriate\n- Human and relatable\n\nOutput only the post text, nothing else. Do not include hashtags in the main text.".data

def strategyGeneratePrompt : Strategy → ContentContext → List Char
  | .twitter => twitterGeneratePrompt
  | .linkedin => linkedinGeneratePrompt

/-! ## ContentGeneratorService (the orchestrator) -/

/-- The external Generator's result (`GenerationResult` of the provider interface). -/
structure GenerationResult where
  content : List Char
  model : List Char
  tokensTotal : ℕ
  cost : Option ℚ

structure ContentGenerationRequest where
  platform : List Char
  topic : List Char
  tone : Option Tone
  targetAudience : Option (List Char)
  includeHashtags : Option Bool
  includeEmojis : Option Bool
  callToAction : Option (List Char)
  format : Option (List Char)

structure ResponseMetadata where
  model : List Char
  provider : List Char
  tokensUsed : ℕ
  cost : ℚ
  qualityScore : ℝ
  characterCount : ℕ
  wordCount : ℕ
  estimatedEngagement : Engagement

structure ResponseValidation where
  isValid : Bool
  score : ℚ
  warnings : List (List Char)
  suggestions : List (List Char)

/-- The orchestrator's response. The extra field `prompts` instruments the
pipeline: it records, in order, the prompt of every call made to the external
Generator during the request (the code awaits `aiProvider.generateContent` once
per entry). -/
structure ContentGenerationResponse where
  content : List Char
  platform : List Char
  hashtags : List (List Char)
  metadata : ResponseMetadata
  validation : ResponseValidation
  prompts : List (List Char)

/-- The corrective feedback appended to the original prompt before the single
retry. -/
def improvedPromptOf (prompt : List Char) (critical : List (List Char)) : List Char :=
  prompt ++ "\n\nIMPORTANT: Previous attempt failed with these issues: ".data ++
    joinSep ", ".data critical ++ ". Please address these issues.".data

/-- `generateContent` of `ContentGeneratorService`. The external provider is
modelled as an oracle `gen` giving the result of the n-th generation call of this
request; the pipeline calls `gen 0`, and `gen 1` only in the one corrective
regeneration. -/
noncomputable def generateContent (request : ContentGenerationRequest)
    (gen : ℕ → GenerationResult) : ContentGenerationResponse :=
  let tone := request.tone.getD Tone.conversational
  let includeHashtags := request.includeHashtags.getD false
  let includeEmojis := request.includeEmojis.getD false
  let format := request.format.getD "single".data
  let context : ContentContext :=
    { topic := request.topic
      tone := some tone
      targetAudience := request.targetAudience
      includeHashtags := includeHashtags
      includeEmojis := includeEmojis
      callToAction := request.callToAction
      format := some format }
  let strat := getStrategy request.platform
  let prompt := strategyGeneratePrompt strat context
  let generationResult := gen 0
  let generated0 := strategyPostProcess strat generationResult.content
  let qualityResult := validateContent generated0
  let regen := qualityResult.score.overall < 5 ∧ qualityResult.issues.critical.length > 0
  let generatedContent :=
    if regen then strategyPostProcess strat (gen 1).content else generated0
  let prompts :=
    if regen then [prompt, improvedPromptOf prompt qualityResult.issues.critical]
    else [prompt]
  let optimized := strategyOptimize strat generatedContent context
  let platformValidation := strategyValidate strat optimized.content
  let finalQuality := validateContent optimized.content
  { content := optimized.content
    platform := request.platform
    hashtags := optimized.hashtags
    metadata :=
      { model := generationResult.model
        provider := "openrouter".data
        tokensUsed := generationResult.tokensTotal
        cost := generationResult.cost.getD 0
        qualityScore := finalQuality.score.overall
        characterCount := optimized.metadata.characterCount
        wordCount := optimized.metadata.wordCount
        estimatedEngagement := optimized.metadata.estimatedEngagement }
    validation :=
      { isValid := platformValidation.isValid && finalQuality.issues.critical.isEmpty
        score := platformValidation.score
        warnings := platformValidation.warnings ++ finalQuality.issues.warnings
        suggestions := platformValidation.warnings ++ finalQuality.issues.suggestions }
    prompts := prompts }


/-! ## Normal-form predicates for the post-processing passes -/

/-- A pair of adjacent characters with the first satisfying `P` and the second `Q`
occurs in the list. -/
def pairScan (P Q : Char → Bool) : List Char → Bool
  | [] => false
  | [_] => false
  | a :: b :: rest => (P a && Q b) || pairScan P Q (b :: rest)

/-- Some maximal run of the character `ch`, counting a pending run of `n` copies
before the list, reaches length `k`. -/
def maxRunReached (ch : Char) (k : ℕ) : ℕ → List Char → Bool
  | n, [] => k ≤ n
  | n, c :: cs => if c = ch then maxRunReached ch k (n + 1) cs else (k ≤ n) || maxRunReached ch k 0 cs

/-- The list contains a run of `k` or more copies of `ch`. -/
def hasRun (ch : Char) (k : ℕ) (l : List Char) : Bool := maxRunReached ch k 0 l


/-! ## Verification infrastructure -/

theorem pairScan_cons (P Q : Char → Bool) (a : Char) (l : List Char) :
    pairScan P Q (a :: l) =
      ((l.head?.elim false fun b => P a && Q b) || pairScan P Q l) := by
  cases l with
  | nil => simp [pairScan]
  | cons b rest => simp [pairScan]

theorem pairScan_tail {P Q : Char → Bool} {a : Char} {l : List Char}
    (h : pairScan P Q (a :: l) = false) : pairScan P Q l = false := by
  rw [pairScan_cons] at h
  exact (Bool.or_eq_false_iff.mp h).2

theorem pairScan_append_false_iff (P Q : Char → Bool) (xs ys : List Char) :
    pairScan P Q (xs ++ ys) = false ↔
      pairScan P Q xs = false ∧ pairScan P Q ys = false ∧
        (∀ a b, xs.getLast? = some a → ys.head? = some b → ¬(P a = true ∧ Q b = true)) := by
  induction xs with
  | nil => simp [pairScan]
  | cons c cs ih =>
    cases cs with
    | nil =>
      cases ys with
      | nil => simp [pairScan]
      | cons y ys' =>
        simp only [List.singleton_append, pairScan, List.getLast?_singleton,
          Option.some.injEq, List.head?_cons]
        constructor
        · intro h
          rcases Bool.or_eq_false_iff.mp h with ⟨h1, h2⟩
          refine ⟨by simp [pairScan], h2, ?_⟩
          intro a b ha hb hab
          subst ha
          cases hb
          rw [hab.1, hab.2] at h1
          simp at h1
        · intro ⟨_, h2, h3⟩
          rw [Bool.or_eq_false_iff]
          refine ⟨?_, h2⟩
          have := h3 c y rfl rfl
          cases hP : P c <;> cases hQ : Q y <;> simp_all
    | cons d ds =>
      simp only [List.cons_append, pairScan]
      rw [Bool.or_eq_false_iff]
      rw [show (d :: ds ++ ys) = ((d :: ds) ++ ys) from rfl] at *
      constructor
      · intro ⟨h1, h2⟩
        obtain ⟨g1, g2, g3⟩ := ih.mp h2
        refine ⟨?_, g2, ?_⟩
        · simp [pairScan, h1, g1]
        · intro a b ha hb
          exact g3 a b (by simpa using ha) hb
      · intro ⟨h1, h2, h3⟩
        simp only [pairScan, Bool.or_eq_false_iff] at h1
        refine ⟨h1.1, ih.mpr ⟨h1.2, h2, ?_⟩⟩
        intro a b ha hb
        exact h3 a b (by simpa using ha) hb

theorem pairScan_false_of_allP {P Q : Char → Bool} {l : List Char}
    (h : ∀ c ∈ l, P c = false) : pairScan P Q l = false := by
  induction l with
  | nil => rfl
  | cons a t ih =>
    rw [pairScan_cons]
    rw [Bool.or_eq_false_iff]
    refine ⟨?_, ih (fun c hc => h c (List.mem_cons_of_mem _ hc))⟩
    cases t with
    | nil => rfl
    | cons b r =>
      simp only [List.head?_cons, Option.elim_some]
      rw [h a (List.mem_cons_self _ _)]
      rfl

theorem pairScan_chain' {P Q : Char → Bool} {l : List Char}
    (h : pairScan P Q l = false) :
    List.Chain' (fun a b => ¬(P a = true ∧ Q b = true)) l := by
  induction l with
  | nil => simp
  | cons a t ih =>
    cases t with
    | nil => simp
    | cons b r =>
      rw [List.chain'_cons]
      simp only [pairScan, Bool.or_eq_false_iff] at h
      refine ⟨?_, ih h.2⟩
      intro ⟨h1, h2⟩
      rw [h1, h2] at h
      simp at h



theorem maxRunReached_mono {ch : Char} {k : ℕ} {l : List Char} {n m : ℕ} (hnm : n ≤ m)
    (h : maxRunReached ch k n l = true) : maxRunReached ch k m l = true := by
  induction l generalizing n m with
  | nil =>
    simp only [maxRunReached, decide_eq_true_eq] at h ⊢
    omega
  | cons c cs ih =>
    by_cases hc : c = ch
    · simp only [maxRunReached, hc, if_true] at h ⊢
      exact ih (by omega) h
    · simp only [maxRunReached, hc, if_false, Bool.or_eq_true, decide_eq_true_eq] at h ⊢
      rcases h with h | h
      · exact Or.inl (by omega)
      · exact Or.inr h

theorem maxRunReached_of_le {ch : Char} {k : ℕ} (l : List Char) {n : ℕ} (h : k ≤ n) :
    maxRunReached ch k n l = true := by
  induction l generalizing n with
  | nil => simpa [maxRunReached]
  | cons c cs ih =>
    by_cases hc : c = ch
    · simp only [maxRunReached, hc, if_true]
      exact ih (by omega)
    · simp [maxRunReached, hc, h]

theorem maxRunReached_replicate_append (ch : Char) (k m : ℕ) (t : List Char) (n : ℕ) :
    maxRunReached ch k n (List.replicate m ch ++ t) = maxRunReached ch k (n + m) t := by
  induction m generalizing n with
  | zero => simp
  | succ m ih =>
    rw [List.replicate_succ, List.cons_append]
    simp only [maxRunReached, if_true]
    rw [ih]
    congr 1
    omega

theorem maxRunReached_junction {ch c : Char} (hc : ¬ c = ch) (k : ℕ) (xs ys : List Char)
    (n : ℕ) :
    maxRunReached ch k n (xs ++ c :: ys) =
      (maxRunReached ch k n xs || maxRunReached ch k 0 ys) := by
  induction xs generalizing n with
  | nil => simp [maxRunReached, hc]
  | cons x xs' ih =>
    by_cases hx : x = ch
    · simp only [List.cons_append, maxRunReached, hx, if_true]
      exact ih _
    · simp only [List.cons_append, maxRunReached, hx, if_false, List.append_eq, ih,
        Bool.or_assoc]

theorem maxRunReached_strip {ch : Char} {k : ℕ} (hk : 1 ≤ k) {xs : List Char}
    (hxs : ∀ a ∈ xs, ¬ a = ch) (hne : xs ≠ []) (t : List Char) (n : ℕ) :
    maxRunReached ch k n (xs ++ t) =
      ((decide (k ≤ n)) || maxRunReached ch k 0 t) := by
  induction xs generalizing n with
  | nil => simp at hne
  | cons x xs' ih =>
    have hx : ¬ x = ch := hxs x (List.mem_cons_self _ _)
    simp only [List.cons_append, maxRunReached, hx, if_false]
    cases xs' with
    | nil => simp
    | cons z zs =>
      have h0 := ih (fun a ha => hxs a (List.mem_cons_of_mem _ ha)) (by simp) 0
      rw [show ((z :: zs).append t) = ((z :: zs) ++ t) from rfl, h0]
      have hk0 : ¬ k ≤ 0 := by omega
      simp [hk0]

theorem maxRunReached_false_of_no_ch {ch : Char} {k : ℕ} (hk : 1 ≤ k) {xs : List Char}
    (hxs : ∀ a ∈ xs, ¬ a = ch) : maxRunReached ch k 0 xs = false := by
  induction xs with
  | nil =>
    simp only [maxRunReached, decide_eq_false_iff_not]
    omega
  | cons x xs' ih =>
    have hx : ¬ x = ch := hxs x (List.mem_cons_self _ _)
    simp only [maxRunReached, hx, if_false, Bool.or_eq_false_iff]
    refine ⟨by simp only [decide_eq_false_iff_not]; omega, ?_⟩
    exact ih (fun a ha => hxs a (List.mem_cons_of_mem _ ha))

theorem maxRunReached_append_left {ch : Char} {k : ℕ} {xs : List Char} {n : ℕ}
    (h : maxRunReached ch k n xs = true) (ys : List Char) :
    maxRunReached ch k n (xs ++ ys) = true := by
  induction xs generalizing n with
  | nil =>
    simp only [maxRunReached, decide_eq_true_eq] at h
    exact maxRunReached_of_le _ h
  | cons x xs' ih =>
    by_cases hx : x = ch
    · simp only [List.cons_append, maxRunReached, hx, if_true] at h ⊢
      exact ih h
    · simp only [List.cons_append, maxRunReached, hx, if_false, Bool.or_eq_true,
        decide_eq_true_eq] at h ⊢
      rcases h with h | h
      · exact Or.inl h
      · exact Or.inr (ih h)

theorem maxRunReached_append_right {ch : Char} {k : ℕ} {ys : List Char}
    (h : maxRunReached ch k 0 ys = true) (xs : List Char) (n : ℕ) :
    maxRunReached ch k n (xs ++ ys) = true := by
  induction xs generalizing n with
  | nil => exact maxRunReached_mono (Nat.zero_le _) h
  | cons x xs' ih =>
    by_cases hx : x = ch
    · simp only [List.cons_append, maxRunReached, hx, if_true]
      exact ih _
    · simp only [List.cons_append, maxRunReached, hx, if_false, Bool.or_eq_true]
      exact Or.inr (ih _)



theorem runOut_eq (ch : Char) (k : ℕ) (rep : List Char) (n : ℕ) :
    runOut ch k rep n = [] ∨ runOut ch k rep n = rep ∨
      runOut ch k rep n = List.replicate n ch := by
  unfold runOut
  split_ifs <;> simp

theorem runOut_mem {ch : Char} {k : ℕ} {rep : List Char} {n : ℕ} {c : Char}
    (h : c ∈ runOut ch k rep n) : c ∈ rep ∨ c = ch := by
  rcases runOut_eq ch k rep n with he | he | he <;> rw [he] at h
  · simp at h
  · exact Or.inl h
  · exact Or.inr (List.eq_of_mem_replicate h)

theorem collapseRunsAux_mem {ch : Char} {k : ℕ} {rep : List Char} {c : Char} :
    ∀ {n : ℕ} {l : List Char}, c ∈ collapseRunsAux ch k rep n l →
      c ∈ rep ∨ c = ch ∨ c ∈ l := by
  intro n l
  induction l generalizing n with
  | nil =>
    intro h
    rw [collapseRunsAux] at h
    rcases runOut_mem h with h | h
    · exact Or.inl h
    · exact Or.inr (Or.inl h)
  | cons a cs ih =>
    intro h
    rw [collapseRunsAux] at h
    split_ifs at h with ha
    · rcases ih h with h | h | h
      · exact Or.inl h
      · exact Or.inr (Or.inl h)
      · exact Or.inr (Or.inr (List.mem_cons_of_mem _ h))
    · rw [List.mem_append] at h
      rcases h with h | h
      · rcases runOut_mem h with h | h
        · exact Or.inl h
        · exact Or.inr (Or.inl h)
      · rcases List.mem_cons.mp h with h | h
        · exact Or.inr (Or.inr (by simp [h]))
        · rcases ih h with h | h | h
          · exact Or.inl h
          · exact Or.inr (Or.inl h)
          · exact Or.inr (Or.inr (List.mem_cons_of_mem _ h))

theorem collapseRunsAux_ne_nil {ch : Char} {k : ℕ} {rep : List Char} (hrep : rep ≠ [])
    (n : ℕ) (l : List Char) (h : l ≠ [] ∨ 0 < n) :
    collapseRunsAux ch k rep n l ≠ [] := by
  induction l generalizing n with
  | nil =>
    rcases h with h | h
    · simp at h
    · rw [collapseRunsAux]
      unfold runOut
      split_ifs with h1 h2
      · exact absurd h1 (by omega)
      · exact hrep
      · simp only [ne_eq, List.replicate_eq_nil_iff]
        omega
  | cons a cs ih =>
    rw [collapseRunsAux]
    split_ifs with ha
    · exact ih _ (Or.inr (by omega))
    · intro habs
      rcases List.append_eq_nil.mp habs with ⟨_, h2⟩
      simp at h2

theorem collapseRunsAux_fix {ch : Char} {k : ℕ} {rep : List Char} :
    ∀ {n : ℕ} {l : List Char}, maxRunReached ch k n l = false →
      collapseRunsAux ch k rep n l = List.replicate n ch ++ l := by
  intro n l
  induction l generalizing n with
  | nil =>
    intro h
    simp only [maxRunReached, decide_eq_false_iff_not] at h
    by_cases h1 : n = 0
    · simp [collapseRunsAux, runOut, h1]
    · rw [collapseRunsAux]
      unfold runOut
      rw [if_neg h1, if_neg h]
      simp
  | cons a cs ih =>
    intro h
    rw [collapseRunsAux]
    split_ifs with ha
    · simp only [maxRunReached, ha, if_true] at h
      rw [ih h, ha, List.replicate_succ', List.append_assoc]
      rfl
    · simp only [maxRunReached, ha, if_false, Bool.or_eq_false_iff,
        decide_eq_false_iff_not] at h
      rw [ih h.2]
      by_cases h1 : n = 0
      · simp [runOut, h1]
      · unfold runOut
        rw [if_neg h1, if_neg h.1]
        simp

theorem collapseRuns_fix {ch : Char} {k : ℕ} {rep : List Char} {l : List Char}
    (h : hasRun ch k l = false) : collapseRuns ch k rep l = l := by
  rw [collapseRuns, collapseRunsAux_fix h]
  simp

theorem collapseRunsAux_fix_rep {ch : Char} {k : ℕ} {rep : List Char}
    (hrep : rep = List.replicate k ch) :
    ∀ {n : ℕ} {l : List Char}, maxRunReached ch (k + 1) n l = false →
      collapseRunsAux ch k rep n l = List.replicate n ch ++ l := by
  intro n l
  induction l generalizing n with
  | nil =>
    intro h
    simp only [maxRunReached, decide_eq_false_iff_not] at h
    by_cases h1 : n = 0
    · simp [collapseRunsAux, runOut, h1]
    · rw [collapseRunsAux]
      unfold runOut
      rw [if_neg h1]
      by_cases h2 : k ≤ n
      · rw [if_pos h2, hrep]
        have hnk : n = k := by omega
        simp [hnk]
      · rw [if_neg h2]
        simp
  | cons a cs ih =>
    intro h
    rw [collapseRunsAux]
    split_ifs with ha
    · simp only [maxRunReached, ha, if_true] at h
      rw [ih h, ha, List.replicate_succ', List.append_assoc]
      rfl
    · simp only [maxRunReached, ha, if_false, Bool.or_eq_false_iff,
        decide_eq_false_iff_not] at h
      rw [ih h.2]
      by_cases h1 : n = 0
      · simp [runOut, h1]
      · unfold runOut
        rw [if_neg h1]
        by_cases h2 : k ≤ n
        · rw [if_pos h2, hrep]
          have hnk : n = k := by omega
          simp [hnk]
        · rw [if_neg h2]
          simp

theorem collapseRuns_fix_rep {ch : Char} {k : ℕ} {rep : List Char} {l : List Char}
    (hrep : rep = List.replicate k ch) (h : hasRun ch (k + 1) l = false) :
    collapseRuns ch k rep l = l := by
  rw [collapseRuns, collapseRunsAux_fix_rep hrep h]
  simp



theorem mem_of_head?_eq {α : Type} {l : List α} {x : α} (h : l.head? = some x) : x ∈ l := by
  cases l with
  | nil => simp at h
  | cons a t =>
    simp only [List.head?_cons, Option.some.injEq] at h
    simp [h.symm]

theorem mem_of_getLast?_eq {α : Type} {l : List α} {x : α} (h : l.getLast? = some x) :
    x ∈ l := by
  induction l with
  | nil => simp at h
  | cons a t ih =>
    cases t with
    | nil =>
      simp only [List.getLast?_singleton, Option.some.injEq] at h
      simp [h.symm]
    | cons b r =>
      rw [List.getLast?_cons_cons] at h
      exact List.mem_cons_of_mem _ (ih h)

theorem runOut_ne_nil {ch : Char} {k : ℕ} {rep : List Char} (hrepne : rep ≠ [])
    {n : ℕ} (hn : 0 < n) : runOut ch k rep n ≠ [] := by
  unfold runOut
  rw [if_neg (by omega)]
  split_ifs with h2
  · exact hrepne
  · simp only [ne_eq, List.replicate_eq_nil_iff]
    omega

theorem collapseRunsAux_head {ch : Char} {k : ℕ} {rep : List Char} (hrepne : rep ≠ []) :
    ∀ {n : ℕ} {l : List Char} {x : Char},
      (collapseRunsAux ch k rep n l).head? = some x →
        (n = 0 ∧ l.head? = some x) ∨
          ((x ∈ rep ∨ x = ch) ∧ (0 < n ∨ l.head? = some ch)) := by
  intro n l
  induction l generalizing n with
  | nil =>
    intro x h
    rw [collapseRunsAux] at h
    have hx : x ∈ runOut ch k rep n := mem_of_head?_eq h
    have hn : 0 < n := by
      by_contra hn
      have hn0 : n = 0 := by omega
      rw [hn0] at h
      simp [runOut] at h
    exact Or.inr ⟨runOut_mem hx, Or.inl hn⟩
  | cons a cs ih =>
    intro x h
    rw [collapseRunsAux] at h
    split_ifs at h with ha
    · rcases ih h with ⟨h1, _⟩ | ⟨h1, _⟩
      · simp at h1
      · exact Or.inr ⟨h1, Or.inr (by simp [ha])⟩
    · by_cases hn : n = 0
      · subst hn
        simp only [runOut, if_pos rfl, List.nil_append, List.head?_cons,
          Option.some.injEq] at h
        exact Or.inl ⟨rfl, by simp [h.symm]⟩
      · have hn' : 0 < n := by omega
        obtain ⟨c, t, hct⟩ := List.exists_cons_of_ne_nil (runOut_ne_nil hrepne hn')
        rw [hct, List.cons_append, List.head?_cons, Option.some.injEq] at h
        have hx : x ∈ runOut ch k rep n := by
          rw [hct, ← h]
          simp
        exact Or.inr ⟨runOut_mem hx, Or.inl hn'⟩

theorem getLast?_append_of_ne_nil {α : Type} {l₁ l₂ : List α} (h : l₂ ≠ []) :
    (l₁ ++ l₂).getLast? = l₂.getLast? := by
  induction l₁ with
  | nil => simp
  | cons a t ih =>
    obtain ⟨b, r, hbr⟩ := List.exists_cons_of_ne_nil (show t ++ l₂ ≠ [] by simp [h])
    rw [List.cons_append, hbr, List.getLast?_cons_cons, ← hbr, ih]



theorem getLast?_cons_of_ne_nil {α : Type} {t : List α} (h : t ≠ []) (a : α) :
    (a :: t).getLast? = t.getLast? := by
  obtain ⟨b, r, hbr⟩ := List.exists_cons_of_ne_nil h
  rw [hbr, List.getLast?_cons_cons]

theorem collapseRunsAux_last {ch : Char} {k : ℕ} {rep : List Char} (hrepne : rep ≠ []) :
    ∀ {n : ℕ} {l : List Char} {x : Char},
      (collapseRunsAux ch k rep n l).getLast? = some x →
        l.getLast? = some x ∨
          ((x ∈ rep ∨ x = ch) ∧ (l.getLast? = some ch ∨ (l = [] ∧ 0 < n))) := by
  intro n l
  induction l generalizing n with
  | nil =>
    intro x h
    rw [collapseRunsAux] at h
    have hx : x ∈ runOut ch k rep n := mem_of_getLast?_eq h
    have hn : 0 < n := by
      by_contra hn
      have hn0 : n = 0 := by omega
      rw [hn0] at h
      simp [runOut] at h
    exact Or.inr ⟨runOut_mem hx, Or.inr ⟨rfl, hn⟩⟩
  | cons a cs ih =>
    intro x h
    rw [collapseRunsAux] at h
    split_ifs at h with ha
    · subst ha
      rcases ih h with h1 | ⟨h1, h2⟩
      · cases cs with
        | nil => simp at h1
        | cons c' cs' => exact Or.inl (by rw [getLast?_cons_of_ne_nil (by simp) a]; exact h1)
      · rcases h2 with h2 | ⟨h2, _⟩
        · refine Or.inr ⟨h1, Or.inl ?_⟩
          cases cs with
          | nil => simp at h2
          | cons c' cs' => rw [getLast?_cons_of_ne_nil (by simp) a]; exact h2
        · subst h2
          exact Or.inr ⟨h1, Or.inl (by simp)⟩
    · cases cs with
      | nil =>
        rw [show collapseRunsAux ch k rep 0 [] = [] from by simp [collapseRunsAux, runOut]] at h
        rw [getLast?_append_of_ne_nil (by simp), List.getLast?_singleton,
          Option.some.injEq] at h
        exact Or.inl (by simp [h.symm])
      | cons c' cs' =>
        have hRne : collapseRunsAux ch k rep 0 (c' :: cs') ≠ [] :=
          collapseRunsAux_ne_nil hrepne 0 _ (Or.inl (by simp))
        rw [getLast?_append_of_ne_nil (by simp),
          getLast?_cons_of_ne_nil hRne a] at h
        rcases ih h with h1 | ⟨h1, h2⟩
        · exact Or.inl (by rw [getLast?_cons_of_ne_nil (by simp) a]; exact h1)
        · rcases h2 with h2 | ⟨h2, _⟩
          · refine Or.inr ⟨h1, Or.inl ?_⟩
            rw [getLast?_cons_of_ne_nil (by simp) a]
            exact h2
          · simp at h2

theorem collapseRuns_out {ch : Char} {k kk r : ℕ} {rep : List Char}
    (hrep : rep = List.replicate r ch) (hrkk : r < kk) (hkkk : k ≤ kk) (hkk : 1 ≤ kk) :
    ∀ {n : ℕ} {l : List Char},
      maxRunReached ch kk 0 (collapseRunsAux ch k rep n l) = false := by
  have hout : ∀ n : ℕ, ∃ m, runOut ch k rep n = List.replicate m ch ∧ m < kk := by
    intro n
    unfold runOut
    split_ifs with h1 h2
    · exact ⟨0, by simp, by omega⟩
    · exact ⟨r, hrep, hrkk⟩
    · exact ⟨n, rfl, by omega⟩
  intro n l
  induction l generalizing n with
  | nil =>
    rw [collapseRunsAux]
    obtain ⟨m, hm, hmkk⟩ := hout n
    rw [hm, show (List.replicate m ch) = (List.replicate m ch ++ ([] : List Char)) by simp,
      maxRunReached_replicate_append]
    simp only [maxRunReached, decide_eq_false_iff_not]
    omega
  | cons a cs ih =>
    rw [collapseRunsAux]
    split_ifs with ha
    · exact ih
    · obtain ⟨m, hm, hmkk⟩ := hout n
      rw [hm, maxRunReached_replicate_append]
      simp only [maxRunReached, ha, if_false, Bool.or_eq_false_iff,
        decide_eq_false_iff_not, Nat.zero_add]
      exact ⟨by omega, ih⟩

theorem collapseRuns_cross {ch ch' : Char} {k' kk : ℕ} {rep' : List Char}
    (hne : ¬ ch' = ch) (hrep' : ∀ a ∈ rep', ¬ a = ch) (hrepne : rep' ≠ [])
    (hkk : 1 ≤ kk) :
    ∀ {l : List Char} {m n : ℕ},
      maxRunReached ch kk m (List.replicate n ch' ++ l) = false →
      maxRunReached ch kk m (collapseRunsAux ch' k' rep' n l) = false := by
  intro l
  induction l with
  | nil =>
    intro m n h
    rw [collapseRunsAux]
    by_cases hn : n = 0
    · subst hn
      simpa [runOut] using h
    · have hnn : 0 < n := by omega
      have hrepl : ∀ a ∈ List.replicate n ch', ¬ a = ch := by
        intro a ha
        rw [List.eq_of_mem_replicate ha]
        exact hne
      rw [maxRunReached_strip hkk hrepl (by simp [hn]) [] m] at h
      simp only [Bool.or_eq_false_iff, decide_eq_false_iff_not] at h
      obtain ⟨c, t, hct⟩ := List.exists_cons_of_ne_nil (runOut_ne_nil hrepne hnn)
      have hro : ∀ a ∈ runOut ch' k' rep' n, ¬ a = ch := by
        intro a ha
        rcases runOut_mem ha with ha1 | ha1
        · exact hrep' a ha1
        · rw [ha1]; exact hne
      rw [show runOut ch' k' rep' n = runOut ch' k' rep' n ++ [] by simp,
        maxRunReached_strip hkk hro (by rw [hct]; simp) [] m]
      simp only [Bool.or_eq_false_iff, decide_eq_false_iff_not]
      exact ⟨h.1, by simp only [maxRunReached, decide_eq_false_iff_not]; omega⟩
  | cons a cs ih =>
    intro m n h
    rw [collapseRunsAux]
    split_ifs with ha
    · subst ha
      apply ih
      rwa [show List.replicate (n + 1) a ++ cs = List.replicate n a ++ a :: cs by
        rw [List.replicate_succ', List.append_assoc]; rfl]
    · by_cases hn : n = 0
      · subst hn
        simp only [runOut, if_pos rfl, List.nil_append]
        simp only [List.replicate_zero, List.nil_append] at h
        by_cases hach : a = ch
        · subst hach
          simp only [maxRunReached, if_pos rfl] at h ⊢
          exact ih (by simpa using h)
        · simp only [maxRunReached, hach, if_false, Bool.or_eq_false_iff] at h ⊢
          exact ⟨h.1, ih (by simpa using h.2)⟩
      · have hnn : 0 < n := by omega
        have hrepl : ∀ b ∈ List.replicate n ch', ¬ b = ch := by
          intro b hb
          rw [List.eq_of_mem_replicate hb]
          exact hne
        rw [maxRunReached_strip hkk hrepl (by simp [hn]) (a :: cs) m] at h
        simp only [Bool.or_eq_false_iff, decide_eq_false_iff_not] at h
        have hro : ∀ b ∈ runOut ch' k' rep' n, ¬ b = ch := by
          intro b hb
          rcases runOut_mem hb with hb1 | hb1
          · exact hrep' b hb1
          · rw [hb1]; exact hne
        obtain ⟨c, t, hct⟩ := List.exists_cons_of_ne_nil (runOut_ne_nil hrepne hnn)
        rw [maxRunReached_strip hkk hro (by rw [hct]; simp) _ m]
        simp only [Bool.or_eq_false_iff, decide_eq_false_iff_not]
        refine ⟨h.1, ?_⟩
        by_cases hach : a = ch
        · subst hach
          simp only [maxRunReached, if_pos rfl] at h ⊢
          exact ih (by simpa using h.2)
        · simp only [maxRunReached, hach, if_false, Bool.or_eq_false_iff] at h ⊢
          refine ⟨by simp only [decide_eq_false_iff_not]; omega, ?_⟩
          exact ih (by simpa using h.2.2)



theorem collapseRuns_cross' {ch ch' : Char} {k' kk : ℕ} {rep' : List Char}
    (hne : ¬ ch' = ch) (hrep' : ∀ a ∈ rep', ¬ a = ch) (hrepne : rep' ≠ [])
    (hkk : 1 ≤ kk) {l : List Char} (h : hasRun ch kk l = false) :
    hasRun ch kk (collapseRuns ch' k' rep' l) = false := by
  rw [hasRun, collapseRuns]
  exact collapseRuns_cross hne hrep' hrepne hkk (by simpa using h)

theorem collapseRuns_pairPres {P Q : Char → Bool} {ch : Char} {k : ℕ} {rep : List Char}
    (hPch : P ch = false) (hQch : Q ch = false)
    (hrepP : ∀ a ∈ rep, P a = false) (hrepQ : ∀ a ∈ rep, Q a = false)
    (hrepne : rep ≠ []) :
    ∀ {n : ℕ} {l : List Char}, pairScan P Q l = false →
      pairScan P Q (collapseRunsAux ch k rep n l) = false := by
  intro n l
  induction l generalizing n with
  | nil =>
    intro _
    rw [collapseRunsAux]
    refine pairScan_false_of_allP ?_
    intro c hc
    rcases runOut_mem hc with hc | hc
    · exact hrepP c hc
    · rw [hc]; exact hPch
  | cons a cs ih =>
    intro h
    rw [collapseRunsAux]
    split_ifs with ha
    · exact ih (pairScan_tail h)
    · rw [pairScan_append_false_iff]
      refine ⟨?_, ?_, ?_⟩
      · refine pairScan_false_of_allP ?_
        intro c hc
        rcases runOut_mem hc with hc | hc
        · exact hrepP c hc
        · rw [hc]; exact hPch
      · rw [pairScan_cons]
        rw [Bool.or_eq_false_iff]
        refine ⟨?_, ih (pairScan_tail h)⟩
        cases hR : (collapseRunsAux ch k rep 0 cs).head? with
        | none => rfl
        | some x =>
          simp only [Option.elim_some]
          rcases collapseRunsAux_head hrepne hR with ⟨_, hx⟩ | ⟨hx, _⟩
          · rw [pairScan_cons] at h
            rcases Bool.or_eq_false_iff.mp h with ⟨h1, _⟩
            rw [hx] at h1
            simpa using h1
          · rcases hx with hx | hx
            · rw [hrepQ x hx]
              simp
            · rw [hx, hQch]
              simp
      · intro a' b ha' hb
        have ha'mem : a' ∈ runOut ch k rep n := mem_of_getLast?_eq ha'
        intro ⟨hp, _⟩
        rcases runOut_mem ha'mem with hc | hc
        · rw [hrepP a' hc] at hp
          exact Bool.false_ne_true hp
        · rw [hc, hPch] at hp
          exact Bool.false_ne_true hp

/-! ## squeezeWS normal form -/

theorem squeezeWSAux_ne_nil {l : List Char} (h : l ≠ []) (pending : Bool) :
    squeezeWSAux pending l ≠ [] := by
  induction l generalizing pending with
  | nil => simp at h
  | cons c cs ih =>
    rw [squeezeWSAux]
    split_ifs with h1 h2
    · cases cs with
      | nil => rw [show squeezeWSAux true [] = [' '] from rfl]; simp
      | cons d ds => exact ih (by simp) _
    · simp
    · simp

theorem squeezeWS_fix {l : List Char}
    (hall : ∀ c ∈ l, jsWs c = true → c = ' ')
    (hpair : pairScan jsWs jsWs l = false) : squeezeWS l = l := by
  rw [squeezeWS]
  induction l with
  | nil => rfl
  | cons c cs ih =>
    rw [squeezeWSAux]
    by_cases hc : jsWs c
    · rw [if_pos hc]
      have hcsp : c = ' ' := hall c (List.mem_cons_self _ _) hc
      cases cs with
      | nil => rw [hcsp]; rfl
      | cons d ds =>
        have hd : jsWs d = false := by
          rw [pairScan_cons] at hpair
          rcases Bool.or_eq_false_iff.mp hpair with ⟨h1, _⟩
          simp only [List.head?_cons, Option.elim_some] at h1
          rcases Bool.and_eq_false_iff.mp h1 with h1 | h1
          · rw [hc] at h1; exact absurd h1 (by simp)
          · exact h1
        rw [squeezeWSAux, if_neg (by simp [hd]), if_pos rfl]
        have ihr := ih (fun a ha hw => hall a (List.mem_cons_of_mem _ ha) hw)
          (pairScan_tail hpair)
        rw [squeezeWSAux, if_neg (by simp [hd]), if_neg (by simp)] at ihr
        rw [List.cons_inj_right] at ihr
        rw [hcsp, List.cons_inj_right, List.cons_inj_right]
        exact ihr
    · rw [if_neg hc, if_neg (by simp)]
      rw [List.cons_inj_right]
      exact ih (fun a ha hw => hall a (List.mem_cons_of_mem _ ha) hw) (pairScan_tail hpair)



theorem squeezeWSAux_mem {c : Char} :
    ∀ {pending : Bool} {l : List Char}, c ∈ squeezeWSAux pending l →
      c = ' ' ∨ (c ∈ l ∧ jsWs c = false) := by
  intro pending l
  induction l generalizing pending with
  | nil =>
    intro h
    cases pending with
    | true =>
      rw [show squeezeWSAux true [] = [' '] from rfl] at h
      simp at h
      exact Or.inl h
    | false => simp [squeezeWSAux] at h
  | cons a cs ih =>
    intro h
    rw [squeezeWSAux] at h
    split_ifs at h with h1 h2
    · rcases ih h with h | ⟨hm, hw⟩
      · exact Or.inl h
      · exact Or.inr ⟨List.mem_cons_of_mem _ hm, hw⟩
    · rcases List.mem_cons.mp h with h | h
      · exact Or.inl h
      · rcases List.mem_cons.mp h with h | h
        · subst h
          exact Or.inr ⟨List.mem_cons_self _ _, by simpa using h1⟩
        · rcases ih h with h | ⟨hm, hw⟩
          · exact Or.inl h
          · exact Or.inr ⟨List.mem_cons_of_mem _ hm, hw⟩
    · rcases List.mem_cons.mp h with h | h
      · subst h
        exact Or.inr ⟨List.mem_cons_self _ _, by simpa using h1⟩
      · rcases ih h with h | ⟨hm, hw⟩
        · exact Or.inl h
        · exact Or.inr ⟨List.mem_cons_of_mem _ hm, hw⟩

theorem squeezeWS_all (l : List Char) :
    ∀ c ∈ squeezeWS l, jsWs c = true → c = ' ' := by
  intro c hc _
  rcases squeezeWSAux_mem hc with h | ⟨_, hw⟩
  · exact h
  · simp_all

theorem squeezeWSAux_pair :
    ∀ {pending : Bool} {l : List Char},
      pairScan jsWs jsWs (squeezeWSAux pending l) = false := by
  intro pending l
  induction l generalizing pending with
  | nil =>
    cases pending with
    | true => rw [show squeezeWSAux true [] = [' '] from rfl]; rfl
    | false => rfl
  | cons a cs ih =>
    rw [squeezeWSAux]
    split_ifs with h1 h2
    · exact ih
    · rw [pairScan_cons, Bool.or_eq_false_iff]
      constructor
      · simp only [List.head?_cons, Option.elim_some, Bool.and_eq_false_iff]
        right
        simpa using h1
      · rw [pairScan_cons, Bool.or_eq_false_iff]
        refine ⟨?_, ih⟩
        cases hh : (squeezeWSAux false cs).head? with
        | none => rfl
        | some x =>
          simp only [Option.elim_some, Bool.and_eq_false_iff]
          left
          simpa using h1
    · rw [pairScan_cons, Bool.or_eq_false_iff]
      refine ⟨?_, ih⟩
      cases hh : (squeezeWSAux false cs).head? with
      | none => rfl
      | some x =>
        simp only [hh, Option.elim_some, Bool.and_eq_false_iff]
        left
        simpa using h1

theorem squeezeWS_head {l : List Char}
    (h : ∀ x, l.head? = some x → jsWs x = false) :
    ∀ x, (squeezeWS l).head? = some x → jsWs x = false := by
  intro x hx
  cases l with
  | nil => simp [squeezeWS, squeezeWSAux] at hx
  | cons c cs =>
    have hc : jsWs c = false := h c rfl
    rw [squeezeWS, squeezeWSAux, if_neg (by simp [hc]), if_neg (by simp)] at hx
    simp only [List.head?_cons, Option.some.injEq] at hx
    rw [← hx]
    exact hc

theorem squeezeWSAux_last :
    ∀ {l : List Char} {pending : Bool},
      (∀ x, l.getLast? = some x → jsWs x = false) → l ≠ [] →
      ∀ x, (squeezeWSAux pending l).getLast? = some x → jsWs x = false := by
  intro l
  induction l with
  | nil => intro pending _ h; simp at h
  | cons c cs ih =>
    intro pending hlast _ x hx
    cases cs with
    | nil =>
      have hc : jsWs c = false := hlast c rfl
      rw [squeezeWSAux, if_neg (by simp [hc])] at hx
      split_ifs at hx
      · rw [show squeezeWSAux false [] = [] from rfl] at hx
        simp only [List.getLast?_cons_cons, List.getLast?_singleton,
          Option.some.injEq] at hx
        rw [← hx]
        exact hc
      · rw [show squeezeWSAux false [] = [] from rfl] at hx
        simp only [List.getLast?_singleton, Option.some.injEq] at hx
        rw [← hx]
        exact hc
    | cons d ds =>
      have htail : ∀ y, (d :: ds).getLast? = some y → jsWs y = false := by
        intro y hy
        exact hlast y (by rw [getLast?_cons_of_ne_nil (by simp) c]; exact hy)
      rw [squeezeWSAux] at hx
      split_ifs at hx with h1 h2
      · exact ih htail (by simp) x hx
      · have hne : squeezeWSAux false (d :: ds) ≠ [] := squeezeWSAux_ne_nil (by simp) _
        rw [List.getLast?_cons_cons, getLast?_cons_of_ne_nil hne c] at hx
        exact ih htail (by simp) x hx
      · have hne : squeezeWSAux false (d :: ds) ≠ [] := squeezeWSAux_ne_nil (by simp) _
        rw [getLast?_cons_of_ne_nil hne c] at hx
        exact ih htail (by simp) x hx

/-! ## trim normal form -/

theorem dropWhile_head {p : Char → Bool} {l : List Char} :
    ∀ x, (l.dropWhile p).head? = some x → p x = false := by
  induction l with
  | nil => intro x h; simp at h
  | cons c cs ih =>
    intro x h
    rw [List.dropWhile_cons] at h
    split_ifs at h with hc
    · exact ih x h
    · simp only [List.head?_cons, Option.some.injEq] at h
      rw [← h]
      simpa using hc

theorem dropWhile_getLast {p : Char → Bool} {l : List Char}
    (h : l.dropWhile p ≠ []) : (l.dropWhile p).getLast? = l.getLast? := by
  induction l with
  | nil => simp at h
  | cons c cs ih =>
    rw [List.dropWhile_cons] at h ⊢
    split_ifs at h ⊢ with hc
    · have hcs : cs ≠ [] := by
        intro habs
        rw [habs] at h
        simp at h
      rw [ih h, getLast?_cons_of_ne_nil hcs c]
    · rfl

theorem trim_head {l : List Char} :
    ∀ x, (trimList l).head? = some x → jsWs x = false := by
  intro x hx
  rw [trimList, List.head?_reverse] at hx
  have hne : (l.dropWhile jsWs).reverse.dropWhile jsWs ≠ [] := by
    intro habs
    rw [habs] at hx
    simp at hx
  rw [dropWhile_getLast hne, List.getLast?_reverse] at hx
  exact dropWhile_head x hx

theorem trim_last {l : List Char} :
    ∀ x, (trimList l).getLast? = some x → jsWs x = false := by
  intro x hx
  rw [trimList, List.getLast?_reverse] at hx
  exact dropWhile_head x hx

theorem dropWhile_eq_self_of_head {p : Char → Bool} {l : List Char}
    (h : ∀ x, l.head? = some x → p x = false) : l.dropWhile p = l := by
  cases l with
  | nil => rfl
  | cons c cs =>
    rw [List.dropWhile_cons, if_neg (by simp [h c rfl])]

theorem trim_fix {l : List Char}
    (h1 : ∀ x, l.head? = some x → jsWs x = false)
    (h2 : ∀ x, l.getLast? = some x → jsWs x = false) : trimList l = l := by
  rw [trimList, dropWhile_eq_self_of_head h1,
    dropWhile_eq_self_of_head (by intro x hx; rw [List.head?_reverse] at hx; exact h2 x hx),
    List.reverse_reverse]



theorem pairScan_false_of_allQ {P Q : Char → Bool} {l : List Char}
    (h : ∀ c ∈ l, Q c = false) : pairScan P Q l = false := by
  induction l with
  | nil => rfl
  | cons a t ih =>
    rw [pairScan_cons, Bool.or_eq_false_iff]
    refine ⟨?_, ih (fun c hc => h c (List.mem_cons_of_mem _ hc))⟩
    cases ht : t.head? with
    | none => rfl
    | some b =>
      simp only [Option.elim_some, Bool.and_eq_false_iff]
      right
      exact h b (mem_of_head?_eq (by rw [ht]) |> List.mem_cons_of_mem a)

theorem punct_not_ws {c : Char} (h : isSpacingPunct c = true) : jsWs c = false := by
  rcases (by simpa [isSpacingPunct] using h : c = '.' ∨ c = ',' ∨ c = '!' ∨ c = '?') with
    h1 | h1 | h1 | h1 <;> subst h1 <;> decide

theorem ws_not_punct {c : Char} (h : jsWs c = true) : isSpacingPunct c = false := by
  by_contra habs
  have hp : isSpacingPunct c = true := by
    cases hx : isSpacingPunct c
    · exact absurd hx habs
    · rfl
  rw [punct_not_ws hp] at h
  exact Bool.false_ne_true h

theorem punct_cases {c : Char} (h : isSpacingPunct c = true) :
    c = '.' ∨ c = ',' ∨ c = '!' ∨ c = '?' := by
  simpa [isSpacingPunct] using h

theorem letter_not_punct {c : Char} (h : isAsciiLetter c = true) :
    isSpacingPunct c = false := by
  by_contra habs
  have hp : isSpacingPunct c = true := by
    cases hx : isSpacingPunct c
    · exact absurd hx habs
    · rfl
  rcases punct_cases hp with h1 | h1 | h1 | h1 <;> subst h1 <;> simp [isAsciiLetter] at h

theorem letter_not_ws {c : Char} (h : isAsciiLetter c = true) : jsWs c = false := by
  simp only [isAsciiLetter, decide_eq_true_eq] at h
  simp only [jsWs, decide_eq_false_iff_not]
  omega



theorem stripWsPunctAux_ne_nil :
    ∀ {q l : List Char}, (q ≠ [] ∨ l ≠ []) → stripWsPunctAux q l ≠ [] := by
  intro q l
  induction l generalizing q with
  | nil =>
    intro h
    rcases h with h | h
    · rw [stripWsPunctAux]
      simpa using h
    · simp at h
  | cons c cs ih =>
    intro _
    rw [stripWsPunctAux]
    split_ifs with h1 h2
    · exact ih (Or.inl (by simp))
    · simp
    · intro habs
      rcases List.append_eq_nil.mp habs with ⟨_, h4⟩
      simp at h4

theorem stripWsPunctAux_last :
    ∀ {l q : List Char},
      (∀ y, (q.reverse ++ l).getLast? = some y → jsWs y = false) →
      ∀ x, (stripWsPunctAux q l).getLast? = some x → jsWs x = false := by
  intro l
  induction l with
  | nil =>
    intro q h x hx
    rw [stripWsPunctAux] at hx
    exact h x (by simpa using hx)
  | cons c cs ih =>
    intro q h x hx
    rw [stripWsPunctAux] at hx
    split_ifs at hx with h1 h2
    · refine ih ?_ x hx
      intro y hy
      rw [List.reverse_cons, List.append_assoc, List.singleton_append] at hy
      exact h y hy
    · cases hcs : cs with
      | nil =>
        subst hcs
        rw [show stripWsPunctAux [] [] = [] from rfl] at hx
        simp only [List.getLast?_singleton, Option.some.injEq] at hx
        rw [← hx]
        exact punct_not_ws (by simpa using h2)
      | cons d ds =>
        subst hcs
        have hne : stripWsPunctAux [] (d :: ds) ≠ [] :=
          stripWsPunctAux_ne_nil (Or.inr (by simp))
        rw [getLast?_cons_of_ne_nil hne c] at hx
        refine ih ?_ x hx
        intro y hy
        simp only [List.reverse_nil, List.nil_append] at hy
        refine h y ?_
        rw [getLast?_append_of_ne_nil (by simp), getLast?_cons_of_ne_nil (by simp) c]
        exact hy
    · cases hcs : cs with
      | nil =>
        subst hcs
        rw [show stripWsPunctAux [] [] = [] from rfl] at hx
        rw [getLast?_append_of_ne_nil (by simp), List.getLast?_singleton,
          Option.some.injEq] at hx
        rw [← hx]
        simpa using h1
      | cons d ds =>
        subst hcs
        have hne : stripWsPunctAux [] (d :: ds) ≠ [] :=
          stripWsPunctAux_ne_nil (Or.inr (by simp))
        rw [getLast?_append_of_ne_nil (by simp), getLast?_cons_of_ne_nil hne c] at hx
        refine ih ?_ x hx
        intro y hy
        simp only [List.reverse_nil, List.nil_append] at hy
        refine h y ?_
        rw [getLast?_append_of_ne_nil (by simp), getLast?_cons_of_ne_nil (by simp) c]
        exact hy

theorem stripWsPunctAux_head {l : List Char}
    (h : ∀ x, l.head? = some x → jsWs x = false) :
    ∀ x, (stripWsBeforePunct l).head? = some x → jsWs x = false := by
  intro x hx
  cases l with
  | nil => simp [stripWsBeforePunct, stripWsPunctAux] at hx
  | cons c cs =>
    have hc : jsWs c = false := h c rfl
    rw [stripWsBeforePunct, stripWsPunctAux, if_neg (by simp [hc])] at hx
    split_ifs at hx
    · simp only [List.head?_cons, Option.some.injEq] at hx
      rw [← hx]
      exact hc
    · simp only [List.reverse_nil, List.nil_append, List.head?_cons,
        Option.some.injEq] at hx
      rw [← hx]
      exact hc

theorem stripWsPunctAux_out :
    ∀ {l q : List Char}, (∀ c ∈ q, jsWs c = true) →
      pairScan jsWs isSpacingPunct (stripWsPunctAux q l) = false := by
  intro l
  induction l with
  | nil =>
    intro q hpend
    rw [stripWsPunctAux]
    refine pairScan_false_of_allQ ?_
    intro c hc
    exact ws_not_punct (hpend c (by simpa using hc))
  | cons c cs ih =>
    intro q hpend
    rw [stripWsPunctAux]
    split_ifs with h1 h2
    · refine ih ?_
      intro a ha
      rcases List.mem_cons.mp ha with ha | ha
      · rw [ha]; exact h1
      · exact hpend a ha
    · rw [pairScan_cons, Bool.or_eq_false_iff]
      refine ⟨?_, ih (by simp)⟩
      cases hh : (stripWsPunctAux [] cs).head? with
      | none => rfl
      | some b =>
        simp only [Option.elim_some, Bool.and_eq_false_iff]
        left
        exact punct_not_ws h2
    · rw [pairScan_append_false_iff]
      refine ⟨?_, ?_, ?_⟩
      · refine pairScan_false_of_allQ ?_
        intro a ha
        exact ws_not_punct (hpend a (by simpa using ha))
      · rw [pairScan_cons, Bool.or_eq_false_iff]
        refine ⟨?_, ih (by simp)⟩
        cases hh : (stripWsPunctAux [] cs).head? with
        | none => rfl
        | some b =>
          simp only [Option.elim_some, Bool.and_eq_false_iff]
          left
          simpa using h1
      · intro a b _ hb
        intro ⟨_, hQ⟩
        simp only [List.head?_cons, Option.some.injEq] at hb
        rw [← hb] at hQ
        rw [hQ] at h2
        exact h2 rfl



theorem stripWsPunctAux_fix :
    ∀ {l q : List Char}, (∀ c ∈ q, jsWs c = true) →
      pairScan jsWs isSpacingPunct (q.reverse ++ l) = false →
      stripWsPunctAux q l = q.reverse ++ l := by
  intro l
  induction l with
  | nil =>
    intro q _ _
    rw [stripWsPunctAux]
    simp
  | cons c cs ih =>
    intro q hpend hpair
    rw [stripWsPunctAux]
    split_ifs with h1 h2
    · rw [ih (by
        intro a ha
        rcases List.mem_cons.mp ha with ha | ha
        · rw [ha]; exact h1
        · exact hpend a ha)
        (by rwa [List.reverse_cons, List.append_assoc, List.singleton_append])]
      rw [List.reverse_cons, List.append_assoc, List.singleton_append]
    · have hpendnil : q = [] := by
        cases hp : q with
        | nil => rfl
        | cons p ps =>
          exfalso
          rw [pairScan_append_false_iff] at hpair
          obtain ⟨_, _, hbound⟩ := hpair
          refine hbound p c ?_ rfl ⟨hpend p (by rw [hp]; simp), h2⟩
          rw [hp, List.reverse_cons]
          rw [getLast?_append_of_ne_nil (by simp)]
          rfl
      subst hpendnil
      simp only [List.reverse_nil, List.nil_append] at hpair ⊢
      rw [List.cons_inj_right]
      have := ih (q := []) (by simp) (by simpa using pairScan_tail hpair)
      simpa using this
    · have := ih (q := []) (by simp) (by
        simp only [List.reverse_nil, List.nil_append]
        rw [pairScan_append_false_iff] at hpair
        exact pairScan_tail hpair.2.1)
      simp only [List.reverse_nil, List.nil_append] at this
      rw [this]

theorem stripWsPunctAux_hasRun {ch : Char} {kk : ℕ} (hch : jsWs ch = true)
    (hkk : 1 ≤ kk) :
    ∀ {l q : List Char},
      maxRunReached ch kk 0 (q.reverse ++ l) = false →
      maxRunReached ch kk 0 (stripWsPunctAux q l) = false := by
  intro l
  induction l with
  | nil =>
    intro q h
    rw [stripWsPunctAux]
    simpa using h
  | cons c cs ih =>
    intro q h
    rw [stripWsPunctAux]
    split_ifs with h1 h2
    · refine ih ?_
      rwa [List.reverse_cons, List.append_assoc, List.singleton_append]
    · have hcch : ¬ c = ch := by
        intro habs
        rw [habs, hch] at h1
        exact h1 rfl
      rw [maxRunReached_junction hcch] at h
      rcases Bool.or_eq_false_iff.mp h with ⟨_, hcs⟩
      have hR := ih (q := []) (by simpa using hcs)
      simp only [maxRunReached, hcch, if_false, Bool.or_eq_false_iff]
      refine ⟨by simp only [decide_eq_false_iff_not]; omega, hR⟩
    · have hcch : ¬ c = ch := by
        intro habs
        rw [habs, hch] at h1
        exact h1 rfl
      rw [maxRunReached_junction hcch] at h
      rcases Bool.or_eq_false_iff.mp h with ⟨hpendr, hcs⟩
      have hR := ih (q := []) (by simpa using hcs)
      rw [maxRunReached_junction hcch]
      rw [Bool.or_eq_false_iff]
      exact ⟨hpendr, hR⟩



theorem spaceAfterPunct_head? (l : List Char) : (spaceAfterPunct l).head? = l.head? := by
  induction l using spaceAfterPunct.induct with
  | case1 => rfl
  | case2 c => rfl
  | case3 p a cs h ih => rw [spaceAfterPunct, if_pos h]; rfl
  | case4 p a cs h ih => rw [spaceAfterPunct, if_neg h]; rfl

theorem spaceAfterPunct_ne_nil {l : List Char} (h : l ≠ []) : spaceAfterPunct l ≠ [] := by
  intro habs
  have := spaceAfterPunct_head? l
  rw [habs] at this
  cases l with
  | nil => exact h rfl
  | cons c cs => simp at this

theorem spaceAfterPunct_last {l : List Char}
    (h : ∀ x, l.getLast? = some x → jsWs x = false) :
    ∀ x, (spaceAfterPunct l).getLast? = some x → jsWs x = false := by
  induction l using spaceAfterPunct.induct with
  | case1 => intro x hx; simp [spaceAfterPunct] at hx
  | case2 c =>
    intro x hx
    rw [show spaceAfterPunct [c] = [c] from rfl] at hx
    exact h x hx
  | case3 p a cs hpa ih =>
    intro x hx
    rw [spaceAfterPunct, if_pos hpa] at hx
    cases hcs : cs with
    | nil =>
      subst hcs
      rw [show spaceAfterPunct [] = [] from rfl] at hx
      simp only [List.getLast?_cons_cons, List.getLast?_singleton, Option.some.injEq] at hx
      refine h x ?_
      rw [← hx]
      simp
    | cons d ds =>
      subst hcs
      have hne : spaceAfterPunct (d :: ds) ≠ [] := spaceAfterPunct_ne_nil (by simp)
      rw [List.getLast?_cons_cons, List.getLast?_cons_cons,
        getLast?_cons_of_ne_nil hne a] at hx
      refine ih ?_ x hx
      intro y hy
      refine h y ?_
      rw [List.getLast?_cons_cons, getLast?_cons_of_ne_nil (by simp) a]
      exact hy
  | case4 p a cs hpa ih =>
    intro x hx
    rw [spaceAfterPunct, if_neg hpa] at hx
    have hne : spaceAfterPunct (a :: cs) ≠ [] := spaceAfterPunct_ne_nil (by simp)
    rw [getLast?_cons_of_ne_nil hne p] at hx
    refine ih ?_ x hx
    intro y hy
    refine h y ?_
    rw [getLast?_cons_of_ne_nil (by simp) p]
    exact hy

theorem spaceAfterPunct_out (l : List Char) :
    pairScan isSpacingPunct isAsciiLetter (spaceAfterPunct l) = false := by
  induction l using spaceAfterPunct.induct with
  | case1 => rfl
  | case2 c => rfl
  | case3 p a cs hpa ih =>
    rw [spaceAfterPunct, if_pos hpa]
    rw [pairScan_cons, Bool.or_eq_false_iff]
    refine ⟨by simp [isAsciiLetter], ?_⟩
    rw [pairScan_cons, Bool.or_eq_false_iff]
    refine ⟨by simp [isSpacingPunct], ?_⟩
    rw [pairScan_cons, Bool.or_eq_false_iff]
    refine ⟨?_, ih⟩
    cases hh : (spaceAfterPunct cs).head? with
    | none => rfl
    | some b =>
      simp only [Option.elim_some, Bool.and_eq_false_iff]
      left
      exact letter_not_punct hpa.2
  | case4 p a cs hpa ih =>
    rw [spaceAfterPunct, if_neg hpa]
    rw [pairScan_cons, Bool.or_eq_false_iff]
    refine ⟨?_, ih⟩
    rw [spaceAfterPunct_head? (a :: cs)]
    simp only [List.head?_cons, Option.elim_some]
    cases hP : isSpacingPunct p <;> cases hA : isAsciiLetter a <;> simp_all

theorem spaceAfterPunct_fix {l : List Char}
    (h : pairScan isSpacingPunct isAsciiLetter l = false) : spaceAfterPunct l = l := by
  induction l using spaceAfterPunct.induct with
  | case1 => rfl
  | case2 c => rfl
  | case3 p a cs hpa ih =>
    exfalso
    rw [pairScan_cons] at h
    rcases Bool.or_eq_false_iff.mp h with ⟨h1, _⟩
    simp only [List.head?_cons, Option.elim_some] at h1
    rw [hpa.1, hpa.2] at h1
    simp at h1
  | case4 p a cs hpa ih =>
    rw [spaceAfterPunct, if_neg hpa, List.cons_inj_right]
    exact ih (pairScan_tail h)

theorem spaceAfterPunct_pairPres {P Q : Char → Bool}
    (hQsp : Q ' ' = false) (hQletter : ∀ c, isAsciiLetter c = true → Q c = false)
    {l : List Char} (h : pairScan P Q l = false) :
    pairScan P Q (spaceAfterPunct l) = false := by
  induction l using spaceAfterPunct.induct with
  | case1 => rfl
  | case2 c => rfl
  | case3 p a cs hpa ih =>
    rw [spaceAfterPunct, if_pos hpa]
    have htail : pairScan P Q (a :: cs) = false := pairScan_tail h
    rw [pairScan_cons, Bool.or_eq_false_iff]
    refine ⟨by simp [hQsp], ?_⟩
    rw [pairScan_cons, Bool.or_eq_false_iff]
    refine ⟨by simp [hQletter a hpa.2], ?_⟩
    rw [pairScan_cons, Bool.or_eq_false_iff]
    refine ⟨?_, ih (pairScan_tail htail)⟩
    rw [spaceAfterPunct_head? cs]
    rw [pairScan_cons] at htail
    rcases Bool.or_eq_false_iff.mp htail with ⟨h1, _⟩
    exact h1
  | case4 p a cs hpa ih =>
    rw [spaceAfterPunct, if_neg hpa]
    rw [pairScan_cons, Bool.or_eq_false_iff]
    refine ⟨?_, ih (pairScan_tail h)⟩
    rw [spaceAfterPunct_head? (a :: cs)]
    rw [pairScan_cons] at h
    rcases Bool.or_eq_false_iff.mp h with ⟨h1, _⟩
    exact h1

theorem spaceAfterPunct_hasRun {ch : Char} {kk : ℕ} (hkk : 1 ≤ kk)
    (hP : isSpacingPunct ch = false) (hA : isAsciiLetter ch = false) (hsp : ¬ ' ' = ch) :
    ∀ {l : List Char} {m : ℕ}, maxRunReached ch kk m l = false →
      maxRunReached ch kk m (spaceAfterPunct l) = false := by
  intro l
  induction l using spaceAfterPunct.induct with
  | case1 => intro m h; exact h
  | case2 c => intro m h; exact h
  | case3 p a cs hpa ih =>
    intro m h
    have hpch : ¬ p = ch := by
      intro habs
      rw [habs, hP] at hpa
      simp at hpa
    have hach : ¬ a = ch := by
      intro habs
      rw [habs, hA] at hpa
      simp at hpa
    rw [spaceAfterPunct, if_pos hpa]
    simp only [maxRunReached, hpch, hach, hsp, if_false, Bool.or_eq_false_iff] at h ⊢
    have hkk0 : decide (kk ≤ 0) = false := by simp only [decide_eq_false_iff_not]; omega
    exact ⟨h.1, hkk0, hkk0, ih h.2.2⟩
  | case4 p a cs hpa ih =>
    intro m h
    rw [spaceAfterPunct, if_neg hpa]
    by_cases hpch : p = ch
    · simp only [maxRunReached, hpch, if_pos rfl] at h ⊢
      exact ih h
    · simp only [maxRunReached, hpch, if_false, Bool.or_eq_false_iff] at h ⊢
      exact ⟨h.1, ih h.2⟩



theorem collapseRuns_head_pres {ch : Char} {k : ℕ} {rep : List Char}
    (hrep : ∀ c ∈ rep, jsWs c = jsWs ch) (hrepne : rep ≠ []) {l : List Char}
    (h : ∀ x, l.head? = some x → jsWs x = false) :
    ∀ x, (collapseRuns ch k rep l).head? = some x → jsWs x = false := by
  intro x hx
  rw [collapseRuns] at hx
  rcases collapseRunsAux_head hrepne hx with ⟨_, hx'⟩ | ⟨hx', hd⟩
  · exact h x hx'
  · rcases hd with hd | hd
    · omega
    · have hch : jsWs ch = false := h ch hd
      rcases hx' with hx' | hx'
      · rw [hrep x hx']
        exact hch
      · rw [hx']
        exact hch

theorem collapseRuns_last_pres {ch : Char} {k : ℕ} {rep : List Char}
    (hrep : ∀ c ∈ rep, jsWs c = jsWs ch) (hrepne : rep ≠ []) {l : List Char}
    (h : ∀ x, l.getLast? = some x → jsWs x = false) :
    ∀ x, (collapseRuns ch k rep l).getLast? = some x → jsWs x = false := by
  intro x hx
  rw [collapseRuns] at hx
  rcases collapseRunsAux_last hrepne hx with hx' | ⟨hx', hd⟩
  · exact h x hx'
  · rcases hd with hd | ⟨_, hd⟩
    · have hch : jsWs ch = false := h ch hd
      rcases hx' with hx' | hx'
      · rw [hrep x hx']
        exact hch
      · rw [hx']
        exact hch
    · omega

theorem collapseRuns_all_pres {ch : Char} {k : ℕ} {rep : List Char}
    (hch : jsWs ch = false) (hrepws : ∀ c ∈ rep, jsWs c = false) {l : List Char}
    (h : ∀ c ∈ l, jsWs c = true → c = ' ') :
    ∀ c ∈ collapseRuns ch k rep l, jsWs c = true → c = ' ' := by
  intro c hc hwc
  rcases collapseRunsAux_mem hc with hc' | hc' | hc'
  · rw [hrepws c hc'] at hwc
    exact absurd hwc (by simp)
  · rw [hc', hch] at hwc
    exact absurd hwc (by simp)
  · exact h c hc' hwc

/-- Idempotence of the Twitter post-processor on inputs whose processed form is
free of a leading role label and wrapping quote characters. -/
theorem twitterPostProcess_fix (x : List Char)
    (h1 : stripLabelTw (TwitterStrategy.postProcess x) = TwitterStrategy.postProcess x)
    (h2 : stripQuotes (TwitterStrategy.postProcess x) = TwitterStrategy.postProcess x) :
    TwitterStrategy.postProcess (TwitterStrategy.postProcess x) =
      TwitterStrategy.postProcess x := by
  have hbang : ∀ c ∈ "!".data, jsWs c = jsWs '!' := by decide
  have hq : ∀ c ∈ "?".data, jsWs c = jsWs '?' := by decide
  set z := stripQuotes (stripLabelTw x) with hz
  set t0 := trimList z with ht0
  set w1 := squeezeWS t0 with hw1
  set w2 := collapseRuns '!' 3 "!".data w1 with hw2
  set y := collapseRuns '?' 2 "?".data w2 with hy
  have hydef : TwitterStrategy.postProcess x = y := rfl
  have hhead : ∀ c, y.head? = some c → jsWs c = false := by
    refine collapseRuns_head_pres hq (by simp) ?_
    refine collapseRuns_head_pres hbang (by simp) ?_
    exact squeezeWS_head (fun c hc => trim_head c hc)
  have hlast : ∀ c, y.getLast? = some c → jsWs c = false := by
    refine collapseRuns_last_pres hq (by simp) ?_
    refine collapseRuns_last_pres hbang (by simp) ?_
    intro c hc
    cases ht : t0 with
    | nil =>
      rw [hw1, ht] at hc
      simp [squeezeWS, squeezeWSAux] at hc
    | cons d ds =>
      rw [hw1, squeezeWS, ht] at hc
      refine squeezeWSAux_last ?_ (by simp) c hc
      intro e he
      rw [← ht] at he
      exact trim_last e he
  have htrim : trimList y = y := trim_fix hhead hlast
  have hall : ∀ c ∈ y, jsWs c = true → c = ' ' := by
    refine collapseRuns_all_pres (by decide) (by decide) ?_
    refine collapseRuns_all_pres (by decide) (by decide) ?_
    exact squeezeWS_all t0
  have hpairws : pairScan jsWs jsWs y = false := by
    refine collapseRuns_pairPres (by decide) (by decide) (by decide) (by decide)
      (by simp) ?_
    refine collapseRuns_pairPres (by decide) (by decide) (by decide) (by decide)
      (by simp) ?_
    exact squeezeWSAux_pair
  have hsws : squeezeWS y = y := squeezeWS_fix hall hpairws
  have hbangrun : hasRun '!' 3 y = false := by
    refine collapseRuns_cross' (by decide) (by decide) (by simp) (by omega) ?_
    rw [hw2, collapseRuns, hasRun]
    exact collapseRuns_out (r := 1) (by decide) (by omega) (by omega) (by omega)
  have hcb : collapseRuns '!' 3 "!".data y = y := collapseRuns_fix hbangrun
  have hqrun : hasRun '?' 2 y = false := by
    rw [hy, collapseRuns, hasRun]
    exact collapseRuns_out (r := 1) (by decide) (by omega) (by omega) (by omega)
  have hcq : collapseRuns '?' 2 "?".data y = y := collapseRuns_fix hqrun
  rw [hydef] at h1 h2 ⊢
  calc TwitterStrategy.postProcess y
      = collapseRuns '?' 2 "?".data (collapseRuns '!' 3 "!".data
          (squeezeWS (trimList (stripQuotes (stripLabelTw y))))) := rfl
    _ = y := by rw [h1, h2, htrim, hsws, hcb, hcq]



/-- Idempotence of the LinkedIn post-processor on inputs whose processed form is
free of a leading role label, wrapping quotes, and collapsible punctuation runs. -/
theorem linkedinPostProcess_fix (x : List Char)
    (h1 : stripLabelLi (LinkedInStrategy.postProcess x) = LinkedInStrategy.postProcess x)
    (h2 : stripQuotes (LinkedInStrategy.postProcess x) = LinkedInStrategy.postProcess x)
    (h3 : collapseRuns '!' 3 "!".data (LinkedInStrategy.postProcess x) =
      LinkedInStrategy.postProcess x)
    (h4 : collapseRuns '?' 2 "?".data (LinkedInStrategy.postProcess x) =
      LinkedInStrategy.postProcess x)
    (h5 : collapseRuns '.' 3 "...".data (LinkedInStrategy.postProcess x) =
      LinkedInStrategy.postProcess x) :
    LinkedInStrategy.postProcess (LinkedInStrategy.postProcess x) =
      LinkedInStrategy.postProcess x := by
  have hnl : ∀ c ∈ "\n\n".data, jsWs c = jsWs '\n' := by decide
  have hbang : ∀ c ∈ "!".data, jsWs c = jsWs '!' := by decide
  have hq : ∀ c ∈ "?".data, jsWs c = jsWs '?' := by decide
  have hdots : ∀ c ∈ "...".data, jsWs c = jsWs '.' := by decide
  set z := stripQuotes (stripLabelLi x) with hz
  set t0 := trimList z with ht0
  set w1 := collapseRuns '\n' 3 "\n\n".data t0 with hw1
  set w2 := collapseRuns '!' 3 "!".data w1 with hw2
  set w3 := collapseRuns '?' 2 "?".data w2 with hw3
  set w4 := collapseRuns '.' 3 "...".data w3 with hw4
  set w5 := stripWsBeforePunct w4 with hw5
  set y := spaceAfterPunct w5 with hy
  have hydef : LinkedInStrategy.postProcess x = y := rfl
  have hhead : ∀ c, y.head? = some c → jsWs c = false := by
    intro c hc
    rw [hy, spaceAfterPunct_head?] at hc
    refine stripWsPunctAux_head ?_ c hc
    refine collapseRuns_head_pres hdots (by simp) ?_
    refine collapseRuns_head_pres hq (by simp) ?_
    refine collapseRuns_head_pres hbang (by simp) ?_
    refine collapseRuns_head_pres hnl (by simp) ?_
    exact fun e he => trim_head e he
  have hlast : ∀ c, y.getLast? = some c → jsWs c = false := by
    refine spaceAfterPunct_last ?_
    intro c hc
    refine stripWsPunctAux_last (q := []) ?_ c hc
    intro e he
    simp only [List.reverse_nil, List.nil_append] at he
    revert e he
    refine collapseRuns_last_pres hdots (by simp) ?_
    refine collapseRuns_last_pres hq (by simp) ?_
    refine collapseRuns_last_pres hbang (by simp) ?_
    refine collapseRuns_last_pres hnl (by simp) ?_
    exact fun e he => trim_last e he
  have htrim : trimList y = y := trim_fix hhead hlast
  have hnlrun : hasRun '\n' 3 y = false := by
    rw [hy, hw5, stripWsBeforePunct]
    refine spaceAfterPunct_hasRun (by omega) (by decide) (by decide) (by decide) ?_
    refine stripWsPunctAux_hasRun (by decide) (by omega) (q := []) ?_
    simp only [List.reverse_nil, List.nil_append]
    refine collapseRuns_cross' (by decide) (by decide) (by simp) (by omega) ?_
    refine collapseRuns_cross' (by decide) (by decide) (by simp) (by omega) ?_
    refine collapseRuns_cross' (by decide) (by decide) (by simp) (by omega) ?_
    rw [hw1, collapseRuns, hasRun]
    exact collapseRuns_out (r := 2) (by decide) (by omega) (by omega) (by omega)
  have hcnl : collapseRuns '\n' 3 "\n\n".data y = y := collapseRuns_fix hnlrun
  have hwsp : stripWsBeforePunct y = y := by
    have hout : pairScan jsWs isSpacingPunct y = false := by
      rw [hy]
      refine spaceAfterPunct_pairPres (by decide)
        (fun c hc => letter_not_punct hc) ?_
      rw [hw5, stripWsBeforePunct]
      exact stripWsPunctAux_out (by simp)
    rw [stripWsBeforePunct]
    have := stripWsPunctAux_fix (q := []) (l := y) (by simp) (by simpa using hout)
    simpa using this
  have hsap : spaceAfterPunct y = y := by
    refine spaceAfterPunct_fix ?_
    rw [hy]
    exact spaceAfterPunct_out w5
  rw [hydef] at h1 h2 h3 h4 h5 ⊢
  calc LinkedInStrategy.postProcess y
      = spaceAfterPunct (stripWsBeforePunct (collapseRuns '.' 3 "...".data
          (collapseRuns '?' 2 "?".data (collapseRuns '!' 3 "!".data
            (collapseRuns '\n' 3 "\n\n".data
              (trimList (stripQuotes (stripLabelLi y)))))))) := rfl
    _ = y := by rw [h1, h2, htrim, hcnl, h3, h4, h5, hwsp, hsap]

/-! ## Score-range helpers -/

theorem jsRound10_mem (x : ℝ) (h0 : 0 ≤ x) (h1 : x ≤ 10) :
    0 ≤ jsRound10 x ∧ jsRound10 x ≤ 10 := by
  unfold jsRound10
  have hl : (0 : ℤ) ≤ ⌊x * 10 + 1 / 2⌋ := by
    have h := Int.floor_le_floor (α := ℝ) (show (1 / 2 : ℝ) ≤ x * 10 + 1 / 2 by linarith)
    refine le_trans ?_ h
    norm_num
  have hu : ⌊x * 10 + 1 / 2⌋ ≤ 100 := by
    have h := Int.floor_le_floor (α := ℝ) (show x * 10 + 1 / 2 ≤ 100 + 1 / 2 by linarith)
    refine le_trans h ?_
    norm_num
  constructor
  · positivity
  · rw [div_le_iff₀ (by norm_num)]
    calc ((⌊x * 10 + 1 / 2⌋ : ℤ) : ℝ) ≤ ((100 : ℤ) : ℝ) := by exact_mod_cast hu
      _ = 10 * 10 := by norm_num

theorem readability_mem (c : List Char) :
    0 ≤ calculateReadability c ∧ calculateReadability c ≤ 100 := by
  unfold calculateReadability
  dsimp only
  split_ifs with h
  · norm_num
  · exact ⟨le_max_left _ _, max_le (by norm_num) (min_le_left _ _)⟩

theorem variety_nonneg (c : List Char) : 0 ≤ calculateSentenceVariety c := by
  unfold calculateSentenceVariety
  dsimp only
  split_ifs with h1 h2
  · norm_num
  · exact div_nonneg (Real.sqrt_nonneg _) (by exact_mod_cast le_of_lt h2)
  · exact le_refl 0

theorem quality_fields_mem (content : List Char) (s j e : ℕ) (r : ℚ) (v : ℝ)
    (hr0 : 0 ≤ r) (hr1 : r ≤ 100) (hv : 0 ≤ v) :
    let q := calculateQualityScore content s j e r v
    (0 ≤ q.overall ∧ q.overall ≤ 10) ∧
    (0 ≤ q.authenticity ∧ q.authenticity ≤ 10) ∧
    (0 ≤ q.engagement ∧ q.engagement ≤ 10) ∧
    (0 ≤ q.clarity ∧ q.clarity ≤ 10) ∧
    (0 ≤ q.platform ∧ q.platform ≤ 10) := by
  intro q
  have hauth : (0 : ℚ) ≤ max 0 (min 10 (10 - (s : ℚ) * 2 - (j : ℚ))) ∧
      max 0 (min 10 (10 - (s : ℚ) * 2 - (j : ℚ))) ≤ 10 :=
    ⟨le_max_left _ _, max_le (by norm_num) (min_le_left _ _)⟩
  have heng0 : (0 : ℚ) ≤ min 10 ((e : ℚ) * 3) ∧ min 10 ((e : ℚ) * 3) ≤ 10 :=
    ⟨le_min (by norm_num) (by positivity), min_le_left _ _⟩
  have heng : (0 : ℚ) ≤ (if isGeneric content then max 0 (min 10 ((e : ℚ) * 3) - 3)
        else min 10 ((e : ℚ) * 3)) ∧
      (if isGeneric content then max 0 (min 10 ((e : ℚ) * 3) - 3)
        else min 10 ((e : ℚ) * 3)) ≤ 10 := by
    split_ifs
    · exact ⟨le_max_left _ _, max_le (by norm_num) (by linarith [heng0.2])⟩
    · exact heng0
  have hclar : (0 : ℚ) ≤ min 10 (r / 10) ∧ min 10 (r / 10) ≤ 10 :=
    ⟨le_min (by norm_num) (by positivity), min_le_left _ _⟩
  have hplat : (0 : ℝ) ≤ min 10 (v * 10 + 5) ∧ min 10 (v * 10 + 5) ≤ 10 :=
    ⟨le_min (by norm_num) (by nlinarith), min_le_left _ _⟩
  show _ ∧ _ ∧ _ ∧ _ ∧ _
  simp only [q, calculateQualityScore]
  refine ⟨?_, jsRound10_mem _ (by exact_mod_cast hauth.1) (by exact_mod_cast hauth.2),
    jsRound10_mem _ (by exact_mod_cast heng.1) (by exact_mod_cast heng.2),
    jsRound10_mem _ (by exact_mod_cast hclar.1) (by exact_mod_cast hclar.2),
    jsRound10_mem _ hplat.1 hplat.2⟩
  apply jsRound10_mem
  · have h1 : (0 : ℝ) ≤ (max 0 (min 10 (10 - (s : ℚ) * 2 - (j : ℚ))) : ℚ) := by
      exact_mod_cast hauth.1
    have h2 : ((if isGeneric content then max 0 (min 10 ((e : ℚ) * 3) - 3)
        else min 10 ((e : ℚ) * 3) : ℚ) : ℝ) ≥ 0 := by exact_mod_cast heng.1
    have h3 : (0 : ℝ) ≤ (min 10 (r / 10) : ℚ) := by exact_mod_cast hclar.1
    nlinarith [hplat.1]
  · have h1 : ((max 0 (min 10 (10 - (s : ℚ) * 2 - (j : ℚ))) : ℚ) : ℝ) ≤ 10 := by
      exact_mod_cast hauth.2
    have h2 : ((if isGeneric content then max 0 (min 10 ((e : ℚ) * 3) - 3)
        else min 10 ((e : ℚ) * 3) : ℚ) : ℝ) ≤ 10 := by exact_mod_cast heng.2
    have h3 : ((min 10 (r / 10) : ℚ) : ℝ) ≤ 10 := by exact_mod_cast hclar.2
    nlinarith [hplat.2]

/-! ## Sentence-variety helpers -/

theorem splitOnRunsAux_ne_nil (p : Char → Bool) (acc : List Char) (l : List Char) :
    splitOnRunsAux p acc l ≠ [] := by
  induction l generalizing acc with
  | nil => simp [splitOnRunsAux]
  | cons c cs ih =>
    by_cases hc : p c
    · cases cs with
      | nil => simp [splitOnRunsAux, hc]
      | cons d ds =>
        by_cases hd : p d
        · simpa [splitOnRunsAux, hc, hd] using ih _
        · simp [splitOnRunsAux, hc, hd]
    · simpa [splitOnRunsAux, hc] using ih _

theorem splitWsJs_length_pos (l : List Char) : 0 < (splitWsJs l).length :=
  List.length_pos.mpr (splitOnRunsAux_ne_nil _ _ _)

theorem sentenceLengths_pos (content : List Char) :
    ∀ n ∈ sentenceLengths content, 0 < n := by
  intro n hn
  simp only [sentenceLengths, List.mem_map] at hn
  obtain ⟨s, _, rfl⟩ := hn
  exact splitWsJs_length_pos _

theorem sentenceLengths_length (content : List Char) :
    (sentenceLengths content).length = (sentencesOf content).length := by
  simp [sentenceLengths]

theorem cast_mean_eq (content : List Char) :
    ((((sentenceLengths content).map (fun n : ℕ => (n : ℚ))).foldl (· + ·) 0 /
        ((sentenceLengths content).length : ℚ) : ℚ) : ℝ) = cvMeanSpec content := by
  rw [← List.sum_eq_foldl, cvMeanSpec, Rat.cast_div, Rat.cast_list_sum, List.map_map]
  have h1 : List.map ((Rat.cast : ℚ → ℝ) ∘ fun n : ℕ => (n : ℚ)) (sentenceLengths content) =
      List.map (fun n : ℕ => (n : ℝ)) (sentenceLengths content) :=
    List.map_congr_left (fun n _ => by simp)
  rw [h1]
  norm_num

theorem cast_var_eq (content : List Char) :
    ((((sentenceLengths content).map (fun n : ℕ =>
          ((n : ℚ) - ((sentenceLengths content).map (fun m : ℕ => (m : ℚ))).foldl (· + ·) 0 /
            ((sentenceLengths content).length : ℚ)) ^ 2)).foldl (· + ·) 0 /
        ((sentenceLengths content).length : ℚ) : ℚ) : ℝ) = cvVarianceSpec content := by
  rw [← List.sum_eq_foldl, cvVarianceSpec, Rat.cast_div, Rat.cast_list_sum, List.map_map]
  have h1 : List.map ((Rat.cast : ℚ → ℝ) ∘ fun n : ℕ =>
        ((n : ℚ) - ((sentenceLengths content).map (fun m : ℕ => (m : ℚ))).foldl (· + ·) 0 /
          ((sentenceLengths content).length : ℚ)) ^ 2) (sentenceLengths content) =
      List.map (fun n : ℕ => ((n : ℝ) - cvMeanSpec content) ^ 2) (sentenceLengths content) := by
    refine List.map_congr_left (fun n _ => ?_)
    simp only [Function.comp_apply, Rat.cast_pow, Rat.cast_sub, Rat.cast_natCast]
    rw [cast_mean_eq]
  rw [h1]
  norm_num

/-! ## Claim theorems -/

/-- C1: for every input text, every field of the QualityScore returned by
`validateContent` (overall, authenticity, engagement, clarity, platform fit)
lies in the closed interval [0,10]. -/
theorem validateContent_scores_in_range (content : List Char) :
    (0 ≤ (validateContent content).score.overall ∧
      (validateContent content).score.overall ≤ 10) ∧
    (0 ≤ (validateContent content).score.authenticity ∧
      (validateContent content).score.authenticity ≤ 10) ∧
    (0 ≤ (validateContent content).score.engagement ∧
      (validateContent content).score.engagement ≤ 10) ∧
    (0 ≤ (validateContent content).score.clarity ∧
      (validateContent content).score.clarity ≤ 10) ∧
    (0 ≤ (validateContent content).score.platform ∧
      (validateContent content).score.platform ≤ 10) := by
  have h := quality_fields_mem content (detectAISlop content).length
    (detectCorporateJargon content).length (detectEngagementElements content).length
    (calculateReadability content) (calculateSentenceVariety content)
    (readability_mem content).1 (readability_mem content).2 (variety_nonneg content)
  simpa only [validateContent] using h

/-- C2 (amended): empty-string input to the scorer yields
`readabilityScore = 0` as claimed, but the overall score is 5, not 0:
authenticity 10, engagement 0, clarity 0 and platform fit 10 average to 5.
The function is total, so no exception can occur. -/
theorem validateContent_empty_readability_zero_overall_five :
    (validateContent "".data).metrics.readabilityScore = 0 ∧
    (validateContent "".data).score.overall = 5 := by
  constructor
  · simp only [validateContent]
    simp [calculateReadability, show sentencesOf "".data = [] from by decide]
  · simp only [validateContent, calculateQualityScore]
    rw [show detectAISlop "".data = [] from by decide,
      show detectCorporateJargon "".data = [] from by decide,
      show detectEngagementElements "".data = [] from by decide,
      show isGeneric "".data = false from by decide,
      show calculateReadability "".data = 0 from by
        simp [calculateReadability, show sentencesOf "".data = [] from by decide],
      show calculateSentenceVariety "".data = 1 from by
        simp [calculateSentenceVariety, show sentencesOf "".data = [] from by decide]]
    norm_num [jsRound10]

/-- C2 counterexample: the overall score the scorer assigns to the empty string
is 5, which is not the 0 the spec claims. -/
theorem validateContent_empty_overall_ne_zero :
    (validateContent "".data).score.overall ≠ 0 := by
  have h5 : (validateContent "".data).score.overall = 5 := by
    simp only [validateContent, calculateQualityScore]
    rw [show detectAISlop "".data = [] from by decide,
      show detectCorporateJargon "".data = [] from by decide,
      show detectEngagementElements "".data = [] from by decide,
      show isGeneric "".data = false from by decide,
      show calculateReadability "".data = 0 from by
        simp [calculateReadability, show sentencesOf "".data = [] from by decide],
      show calculateSentenceVariety "".data = 1 from by
        simp [calculateSentenceVariety, show sentencesOf "".data = [] from by decide]]
    norm_num [jsRound10]
  rw [h5]
  norm_num

/-- C3: the orchestrator regenerates exactly when the first scoring yields
`overall < 5` and a non-empty critical-issue list; at most two generator calls
ever occur, a second call happens exactly under that condition, and the second
prompt is the first one with the critical issues appended as corrective
feedback. -/
theorem generateContent_at_most_one_retry (request : ContentGenerationRequest)
    (gen : ℕ → GenerationResult) :
    ((generateContent request gen).prompts.length ≤ 2) ∧
    ((generateContent request gen).prompts.length = 2 ↔
      ((validateContent (strategyPostProcess (getStrategy request.platform)
          (gen 0).content)).score.overall < 5 ∧
        (validateContent (strategyPostProcess (getStrategy request.platform)
          (gen 0).content)).issues.critical ≠ [])) ∧
    (((validateContent (strategyPostProcess (getStrategy request.platform)
          (gen 0).content)).score.overall < 5 ∧
        (validateContent (strategyPostProcess (getStrategy request.platform)
          (gen 0).content)).issues.critical ≠ []) →
      ∃ p, (generateContent request gen).prompts =
        [p, improvedPromptOf p (validateContent (strategyPostProcess
          (getStrategy request.platform) (gen 0).content)).issues.critical]) := by
  unfold generateContent
  dsimp only
  by_cases h :
      (validateContent (strategyPostProcess (getStrategy request.platform)
        (gen 0).content)).score.overall < 5 ∧
      (validateContent (strategyPostProcess (getStrategy request.platform)
        (gen 0).content)).issues.critical.length > 0
  · rw [if_pos h]
    have hne : (validateContent (strategyPostProcess (getStrategy request.platform)
        (gen 0).content)).issues.critical ≠ [] := by
      have := h.2
      intro hnil
      rw [hnil] at this
      simp at this
    refine ⟨by simp, ?_, ?_⟩
    · simp only [List.length_cons, List.length_singleton]
      exact ⟨fun _ => ⟨h.1, hne⟩, fun _ => rfl⟩
    · intro _
      exact ⟨_, rfl⟩
  · rw [if_neg h]
    rw [not_and_or] at h
    refine ⟨by simp, ?_, ?_⟩
    · simp only [List.length_singleton]
      constructor
      · intro habs
        omega
      · intro ⟨h1, h2⟩
        exfalso
        rcases h with h | h
        · exact h h1
        · exact h (by simpa [List.length_pos] using h2)
    · intro ⟨h1, h2⟩
      exfalso
      rcases h with h | h
      · exact h h1
      · exact h (by simpa [List.length_pos] using h2)

/-- C5 (amended): with at least two sentences the sentence-variety metric is the
coefficient of variation (standard deviation over mean) of per-sentence word
counts, as claimed; with fewer than two sentences it is defined as 1, not the 0
the spec claims. -/
theorem sentenceVariety_cv_characterisation (content : List Char) :
    ((sentencesOf content).length < 2 → calculateSentenceVariety content = 1) ∧
    (2 ≤ (sentencesOf content).length →
      calculateSentenceVariety content =
        Real.sqrt (cvVarianceSpec content) / cvMeanSpec content) := by
  constructor
  · intro h
    simp [calculateSentenceVariety, h]
  · intro h
    have hnot : ¬ (sentencesOf content).length < 2 := by omega
    have hlenpos : 0 < (sentenceLengths content).length := by
      rw [sentenceLengths_length]; omega
    have hsumpos : 0 < ((sentenceLengths content).map (fun n : ℕ => (n : ℚ))).sum := by
      apply List.sum_pos
      · intro x hx
        rw [List.mem_map] at hx
        obtain ⟨n, hn, hx⟩ := hx
        subst hx
        exact_mod_cast sentenceLengths_pos content n hn
      · intro hnil
        rw [List.map_eq_nil_iff] at hnil
        rw [hnil] at hlenpos
        simp at hlenpos
    have hmeanpos :
        0 < (((sentenceLengths content).map (fun n : ℕ => (n : ℚ))).foldl (· + ·) 0) /
          ((sentenceLengths content).length : ℚ) := by
      rw [List.sum_eq_foldl] at hsumpos
      positivity
    unfold calculateSentenceVariety
    dsimp only
    rw [if_neg hnot, if_pos hmeanpos]
    rw [← cast_mean_eq, ← cast_var_eq]

/-- C5 counterexample: a one-sentence text has sentence variety 1, not the 0
the spec claims for texts with fewer than two sentences. -/
theorem sentenceVariety_single_sentence_is_one :
    (sentencesOf "Hello world.".data).length = 1 ∧
    calculateSentenceVariety "Hello world.".data = 1 ∧
    calculateSentenceVariety "Hello world.".data ≠ 0 := by
  have h1 : (sentencesOf "Hello world.".data).length = 1 := by decide
  have h2 : calculateSentenceVariety "Hello world.".data = 1 := by
    simp [calculateSentenceVariety, h1]
  exact ⟨h1, h2, by rw [h2]; norm_num⟩

/-- C6: for every content and context and both platform strategies, `optimize`
returns at most the owning platform's `maxHashtags` hashtags (2 for Twitter,
5 for LinkedIn, as reported by `getConstraints`). -/
theorem optimize_hashtags_le_max (strat : Strategy) (content : List Char)
    (context : ContentContext) :
    (strategyOptimize strat content context).hashtags.length ≤
      (strategyConstraints strat).maxHashtags := by
  cases strat <;>
    simp only [strategyOptimize, strategyConstraints, TwitterStrategy.optimize,
      LinkedInStrategy.optimize, TwitterStrategy.getConstraints,
      LinkedInStrategy.getConstraints, List.length_map] <;>
    split_ifs <;>
    simp [List.length_take, TwitterStrategy.MAX_HASHTAGS, LinkedInStrategy.RECOMMENDED_MAX]

/-- C8: for every input text and both platform strategies, the validation
result has `isValid = false` exactly when at least one error was accumulated;
warnings never affect validity. -/
theorem validate_invalid_iff_errors (strat : Strategy) (content : List Char) :
    ((strategyValidate strat content).isValid = false ↔
      (strategyValidate strat content).errors ≠ []) := by
  cases strat <;>
    simp only [strategyValidate, TwitterStrategy.validate, LinkedInStrategy.validate] <;>
    split_ifs <;> simp_all

/-- C9: registry lookup is case-insensitive in the platform identifier, maps
"twitter" and "linkedin" to their strategies, and falls back to the Twitter
strategy on any unknown identifier instead of failing. -/
theorem getStrategy_case_insensitive_fallback :
    (∀ p q : List Char, toLowerJs p = toLowerJs q → getStrategy p = getStrategy q) ∧
    (∀ p : List Char, toLowerJs p = "twitter".data → getStrategy p = Strategy.twitter) ∧
    (∀ p : List Char, toLowerJs p = "linkedin".data → getStrategy p = Strategy.linkedin) ∧
    (∀ p : List Char, toLowerJs p ≠ "twitter".data → toLowerJs p ≠ "linkedin".data →
      getStrategy p = Strategy.twitter) := by
  refine ⟨fun p q h => by simp [getStrategy, h], fun p h => by simp [getStrategy, h],
    fun p h => by simp [getStrategy, h], fun p h1 h2 => by simp [getStrategy, h1, h2]⟩

/-- C4 (amended): `postProcess` is idempotent on every input whose processed
form is already free of a leading role label and wrapping quote characters
(and, for LinkedIn, of collapsible `!`, `?` and `.` runs); in particular both
post-processors are idempotent on ordinary prose such as
"Hello, world! This is fine.". Unconditional idempotence fails, because the
quote-stripping step removes one quote layer per pass. -/
theorem postProcess_conditionally_idempotent :
    (∀ x : List Char,
      stripLabelTw (TwitterStrategy.postProcess x) = TwitterStrategy.postProcess x →
      stripQuotes (TwitterStrategy.postProcess x) = TwitterStrategy.postProcess x →
      TwitterStrategy.postProcess (TwitterStrategy.postProcess x) =
        TwitterStrategy.postProcess x) ∧
    (∀ x : List Char,
      stripLabelLi (LinkedInStrategy.postProcess x) = LinkedInStrategy.postProcess x →
      stripQuotes (LinkedInStrategy.postProcess x) = LinkedInStrategy.postProcess x →
      collapseRuns '!' 3 "!".data (LinkedInStrategy.postProcess x) =
        LinkedInStrategy.postProcess x →
      collapseRuns '?' 2 "?".data (LinkedInStrategy.postProcess x) =
        LinkedInStrategy.postProcess x →
      collapseRuns '.' 3 "...".data (LinkedInStrategy.postProcess x) =
        LinkedInStrategy.postProcess x →
      LinkedInStrategy.postProcess (LinkedInStrategy.postProcess x) =
        LinkedInStrategy.postProcess x) ∧
    TwitterStrategy.postProcess
        (TwitterStrategy.postProcess "Hello, world! This is fine.".data) =
      TwitterStrategy.postProcess "Hello, world! This is fine.".data ∧
    LinkedInStrategy.postProcess
        (LinkedInStrategy.postProcess "Hello, world! This is fine.".data) =
      LinkedInStrategy.postProcess "Hello, world! This is fine.".data :=
  ⟨fun x h1 h2 => twitterPostProcess_fix x h1 h2,
   fun x h1 h2 h3 h4 h5 => linkedinPostProcess_fix x h1 h2 h3 h4 h5,
   by decide, by decide⟩

/-- C4 counterexample: on the input consisting of "x" wrapped in two layers of
double quotes, a second application of `postProcess` strips a further quote
layer, so neither the Twitter nor the LinkedIn post-processor is idempotent. -/
theorem postProcess_not_idempotent :
    TwitterStrategy.postProcess (TwitterStrategy.postProcess "\"\"x\"\"".data) ≠
      TwitterStrategy.postProcess "\"\"x\"\"".data ∧
    LinkedInStrategy.postProcess (LinkedInStrategy.postProcess "\"\"x\"\"".data) ≠
      LinkedInStrategy.postProcess "\"\"x\"\"".data := by
  constructor <;> decide

/-- C7: for every text longer than the platform's `maxLength`, `validate`
returns `isValid = false` with a non-empty error list containing the platform's
over-limit message; in particular Twitter `validate` on 300 copies of the
character a yields `isValid = false`, the over-limit error, and score 7
(baseline 10 minus 3). -/
theorem validate_over_limit_invalid :
    (∀ (strat : Strategy) (content : List Char),
      content.length > (strategyConstraints strat).maxLength →
        (strategyValidate strat content).isValid = false ∧
        (strategyValidate strat content).errors ≠ []) ∧
    (∀ content : List Char, content.length > TwitterStrategy.CHAR_LIMIT →
      "Content exceeds Twitter's 280 character limit".data ∈
        (TwitterStrategy.validate content).errors) ∧
    (∀ content : List Char, content.length > LinkedInStrategy.CHAR_LIMIT →
      "Content exceeds LinkedIn's 3000 character limit".data ∈
        (LinkedInStrategy.validate content).errors) ∧
    ((TwitterStrategy.validate (List.replicate 300 'a')).isValid = false ∧
      "Content exceeds Twitter's 280 character limit".data ∈
        (TwitterStrategy.validate (List.replicate 300 'a')).errors ∧
      (TwitterStrategy.validate (List.replicate 300 'a')).score = 7) := by
  refine ⟨?_, ?_, ?_, ?_⟩
  · intro strat content h
    cases strat <;>
      simp_all [strategyValidate, strategyConstraints, TwitterStrategy.validate,
        LinkedInStrategy.validate, TwitterStrategy.getConstraints,
        LinkedInStrategy.getConstraints, TwitterStrategy.CHAR_LIMIT,
        LinkedInStrategy.CHAR_LIMIT]
  · intro content h
    simp [TwitterStrategy.validate, h]
  · intro content h
    simp [LinkedInStrategy.validate, h]
  · have hslop :
        TwitterStrategy.slopPhrases.filter
          (fun phrase => includesL (toLowerJs (List.replicate 300 'a')) phrase) = [] := by
      decide
    have hq : (List.replicate 300 'a').contains '?' = false := by decide
    have hd : (List.replicate 300 'a').any Char.isDigit = false := by decide
    have hh : (List.replicate 300 'a').count '#' = 0 := by decide
    refine ⟨?_, ?_, ?_⟩ <;>
      · simp only [TwitterStrategy.validate, hslop, hq, hd, hh]
        norm_num [TwitterStrategy.CHAR_LIMIT]

/-- C10: the Twitter post-processor flattens its input onto a single line:
for every input the output contains no newline character and no two adjacent
whitespace characters, since every whitespace run is collapsed to one space. -/
theorem twitter_postProcess_single_line (x : List Char) :
    '\n' ∉ TwitterStrategy.postProcess x ∧
    List.Chain' (fun a b => ¬ (jsWs a = true ∧ jsWs b = true))
      (TwitterStrategy.postProcess x) := by
  set t0 := trimList (stripQuotes (stripLabelTw x)) with ht0
  have hydef : TwitterStrategy.postProcess x =
      collapseRuns '?' 2 "?".data (collapseRuns '!' 3 "!".data (squeezeWS t0)) := rfl
  have hall : ∀ c ∈ TwitterStrategy.postProcess x, jsWs c = true → c = ' ' := by
    rw [hydef]
    refine collapseRuns_all_pres (by decide) (by decide) ?_
    refine collapseRuns_all_pres (by decide) (by decide) ?_
    exact squeezeWS_all t0
  have hpairws : pairScan jsWs jsWs (TwitterStrategy.postProcess x) = false := by
    rw [hydef]
    refine collapseRuns_pairPres (by decide) (by decide) (by decide) (by decide)
      (by simp) ?_
    refine collapseRuns_pairPres (by decide) (by decide) (by decide) (by decide)
      (by simp) ?_
    exact squeezeWSAux_pair
  constructor
  · intro hmem
    have h := hall '\n' hmem (by decide)
    exact absurd h (by decide)
  · exact pairScan_chain' hpairws

end S2P
